import Mathlib

/-!
A shallow embedding of `src/os/root_openat.go`: the reference-counted root
directory handle (`root.Close`, `root.incref`, `root.decref`) and the in-root
path resolution loop `doInRoot`, together with the thin operation adapters
`rootRemoveAll`, `rootRename` and `rootLink` built on it.

The filesystem is external to the source file, so each directory-relative
syscall outcome is supplied by an environment: an intermediate open either
succeeds (the model allocates a fresh descriptor), reports a symlink target,
or fails; the leaf action is a caller-supplied function, exactly as in the
source.  The path splitter `splitPathInRoot` is a collaborator whose source
is not part of this repository, so the resolver is parametric in it; a
spec-modelled instance is provided for concrete evaluation.  The model also
records an event trace (acquire/release of the handle, opens and closes of
descriptors, symlink hops, abort sites) so that theorems can speak about
what physically happened during a run.
-/

namespace OsRoot

/-- Error values: the distinguished sentinel errors of the source
(`syscall.ENAMETOOLONG`, `errPathEscapes`, `syscall.ELOOP`, `ErrClosed`,
`syscall.EINVAL`, not-exist) plus pass-through OS errors. -/
inductive Err where
  | eNAMETOOLONG
  | ePathEscapes
  | eLOOP
  | errClosed
  | eINVAL
  | eNOENT
  | other (n : Nat)
deriving DecidableEq, Repr

/-- Directory file descriptors are modelled as naturals. -/
abbrev Fd := Nat

/-- Events recorded while the model runs, mirroring the side effects of the
source: root-handle acquire/release, opening and closing of directory
descriptors, symlink-counter increments, the two budget-abort sites, the
restart bookkeeping of the dot-dot branch, leaf-action invocations, and the
two-parent rename/link primitives. -/
inductive Ev where
  | increfOk
  | increfFail
  | decref
  | opened (parent : Fd) (name : String) (fd : Fd)
  | closedFd (fd : Fd)
  | hop
  | eloopAbort
  | budgetAbort (steps restarts : Nat)
  | dotdotRestart
  | leafCall (parent : Fd) (name : String)
  | renameatEv (oldparent : Fd) (oldname : String) (newparent : Fd) (newname : String)
  | linkatEv (oldparent : Fd) (oldname : String) (newparent : Fd) (newname : String)
deriving DecidableEq, Repr

/-- The ambient system state: the next fresh descriptor to hand out on a
successful directory open, the set (list) of currently open descriptors, and
the accumulated event trace. -/
structure Sys where
  nextFd : Fd
  live : List Fd
  trace : List Ev
deriving DecidableEq, Repr

/-- Append one event to the trace. -/
def emit (sys : Sys) (e : Ev) : Sys :=
  { sys with trace := sys.trace ++ [e] }

/-- The guarded close of the current directory descriptor, as in
`if dirfd != rootfd { syscall.Close(dirfd) }`. -/
def closeDir (rootfd dirfd : Fd) (sys : Sys) : Sys :=
  if dirfd = rootfd then sys
  else { sys with live := sys.live.erase dirfd, trace := sys.trace ++ [Ev.closedFd dirfd] }

/-- A successful `rootOpenDir(parent, name)`: allocate the next fresh
descriptor, mark it live, record the event. -/
def allocFd (parent : Fd) (name : String) (sys : Sys) : Sys :=
  { nextFd := sys.nextFd + 1
    live := sys.nextFd :: sys.live
    trace := sys.trace ++ [Ev.opened parent name sys.nextFd] }

/-- Result of the caller-supplied leaf action `f`: a value, the `errSymlink`
control-flow signal carrying the target, or a fatal error. -/
inductive LeafRes (T : Type) where
  | ok (v : T)
  | symlink (target : String)
  | fail (e : Err)
deriving DecidableEq, Repr

/-- Outcome of an intermediate `rootOpenDir`, chosen by the environment:
success (the model allocates the descriptor), the `errSymlink` signal, or a
fatal error. -/
inductive OpenOut where
  | ok
  | symlink (target : String)
  | fail (e : Err)
deriving DecidableEq, Repr

/-- The path splitter collaborator (`splitPathInRoot`): path string,
already-consumed prefix components, unconsumed suffix components; returns the
new component list and the trailing-separator suffix of the last component. -/
abbrev SplitF := String → List String → List String → Except Err (List String × String)

/-- The filesystem environment for intermediate opens: given the current step
count (a clock), the parent descriptor and the component name, decide the
outcome. -/
abbrev EnvF := Nat → Fd → String → OpenOut

/-- A leaf action: parent descriptor, final component (with suffix) and the
current system state; may update the system state (the nested resolutions of
rename/link do). -/
abbrev LeafF (T : Type) := Fd → String → Sys → LeafRes T × Sys

/-- A leaf action that only inspects the system state and never changes it. -/
def leafOfEnv {T : Type} (g : Fd → String → Sys → LeafRes T) : LeafF T :=
  fun d nm sys => (g d nm sys, sys)

/-- The resolution cursor of one `doInRoot` call: component list, trailing
separator suffix, index, the three counters, and the current directory
descriptor. -/
structure RSt where
  parts : List String
  suffixSep : String
  i : Nat
  steps : Nat
  restarts : Nat
  symlinks : Nat
  dirfd : Fd
deriving DecidableEq, Repr

/-- Result of one resolution: a value, an error, an out-of-bounds component
read (a Go panic), or fuel exhaustion (a model artifact only; the claims
never rely on it). -/
inductive Out (T : Type) where
  | done (v : T)
  | err (e : Err)
  | crash
  | out
deriving DecidableEq, Repr

/-- Result of one iteration of the resolution loop: return from `doInRoot`,
or continue with an updated cursor and system state. -/
inductive IterRes (T : Type) where
  | ret (o : Out T) (st : RSt) (sys : Sys)
  | cont (st : RSt) (sys : Sys)
deriving DecidableEq, Repr

/-- `const maxSteps = 255` of `doInRoot`. -/
def maxSteps : Nat := 255

/-- `const maxRestarts = 8` of `doInRoot`. -/
def maxRestarts : Nat := 8

/-- Modelled from the spec: `rootMaxSymlinks`, the fixed maximum number of
symlink hops per call, is a named constant defined outside this source file
("a small constant bounding total symlink hops per call"); the theorems below
do not depend on its numeric value. -/
def rootMaxSymlinks : Nat := 8

/-- Length of the run of consecutive dot-dot components at the head of a
list: the `for end < len(parts) && parts[end] == ".."` scan, expressed on
`parts.drop i`. -/
def ddCount : List String → Nat
  | [] => 0
  | p :: ps => if p = ".." then ddCount ps + 1 else 0

/-- The dot-dot branch of the loop body (`restarts++` has already been
counted into the event and the field): scan the run, fail with
`errPathEscapes` if it is longer than the consumed prefix, otherwise delete
the cancelled pair of runs, refill an emptied list with the root-referring
component, reset the index, release any non-root descriptor and go back to
the root descriptor. -/
def ddStep {T : Type} (rootfd : Fd) (st : RSt) (sys : Sys) : IterRes T :=
  let st2 : RSt := { st with restarts := st.restarts + 1 }
  let sys2 := emit sys Ev.dotdotRestart
  let count := ddCount (st2.parts.drop st2.i)
  if st2.i < count then IterRes.ret (Out.err Err.ePathEscapes) st2 sys2
  else
    let ps := st2.parts.take (st2.i - count) ++ st2.parts.drop (st2.i + count)
    let ps2 := if ps = [] then ["."] else ps
    IterRes.cont { st2 with parts := ps2, i := 0, dirfd := rootfd } (closeDir rootfd st2.dirfd sys2)

/-- The `errSymlink` handling of the loop body: count the hop, abort with
`ELOOP` past the maximum, split the target against the consumed prefix and
unconsumed suffix, adopt the target's trailing separator suffix only when the
symlink was the final component, and restart from the root descriptor exactly
when the new list is shorter than the consumed prefix or disagrees with it. -/
def symlinkStep {T : Type} (rootfd : Fd) (split : SplitF) (st : RSt) (sys : Sys)
    (t : String) : IterRes T :=
  let st2 : RSt := { st with symlinks := st.symlinks + 1 }
  let sys2 := emit sys Ev.hop
  if rootMaxSymlinks < st2.symlinks then
    IterRes.ret (Out.err Err.eLOOP) st2 (emit sys2 Ev.eloopAbort)
  else
    match split t (st2.parts.take st2.i) (st2.parts.drop (st2.i + 1)) with
    | Except.error e => IterRes.ret (Out.err e) st2 sys2
    | Except.ok (nps, nsfx) =>
      let sfx := if st2.i = st2.parts.length - 1 then nsfx else st2.suffixSep
      if nps.length < st2.i ∨ ¬ (st2.parts.take st2.i = nps.take st2.i) then
        IterRes.cont { st2 with parts := nps, suffixSep := sfx, i := 0, dirfd := rootfd }
          (closeDir rootfd st2.dirfd sys2)
      else
        IterRes.cont { st2 with parts := nps, suffixSep := sfx } sys2

/-- The last-component branch: rejoin the suffix, call the leaf action, and
either return its verdict or follow the symlink signal. -/
def leafStep {T : Type} (rootfd : Fd) (split : SplitF) (f : LeafF T) (st : RSt) (sys : Sys)
    (p : String) : IterRes T :=
  match f st.dirfd (p ++ st.suffixSep) (emit sys (Ev.leafCall st.dirfd (p ++ st.suffixSep))) with
  | (LeafRes.ok v, sys2) => IterRes.ret (Out.done v) st sys2
  | (LeafRes.fail e, sys2) => IterRes.ret (Out.err e) st sys2
  | (LeafRes.symlink t, sys2) => symlinkStep rootfd split st sys2 t

/-- The intermediate-component branch: open the component as a directory
relative to the current descriptor; on success release the previous non-root
descriptor, move to the new one and advance the index; otherwise propagate
the error or follow the symlink signal. -/
def openStep {T : Type} (rootfd : Fd) (split : SplitF) (env : EnvF) (st : RSt) (sys : Sys)
    (p : String) : IterRes T :=
  match env st.steps st.dirfd p with
  | OpenOut.ok =>
    IterRes.cont { st with i := st.i + 1, dirfd := sys.nextFd }
      (closeDir rootfd st.dirfd (allocFd st.dirfd p sys))
  | OpenOut.fail e => IterRes.ret (Out.err e) st sys
  | OpenOut.symlink t => symlinkStep rootfd split st sys t

/-- One iteration of the loop body of `doInRoot`, after `steps++` has been
applied to the cursor: the conjunctive budget check, then the indexed read of
the current component, then the dot-dot / last-component / intermediate
branches. -/
def iterCore {T : Type} (rootfd : Fd) (split : SplitF) (env : EnvF) (f : LeafF T)
    (st : RSt) (sys : Sys) : IterRes T :=
  if maxSteps < st.steps ∧ maxRestarts < st.restarts then
    IterRes.ret (Out.err Err.eNAMETOOLONG) st (emit sys (Ev.budgetAbort st.steps st.restarts))
  else
    match st.parts[st.i]? with
    | none => IterRes.ret Out.crash st sys
    | some p =>
      if p = ".." then ddStep rootfd st sys
      else if st.i = st.parts.length - 1 then leafStep rootfd split f st sys p
      else openStep rootfd split env st sys p

/-- One iteration of the loop of `doInRoot`, starting with `steps++`. -/
def iter {T : Type} (rootfd : Fd) (split : SplitF) (env : EnvF) (f : LeafF T)
    (st : RSt) (sys : Sys) : IterRes T :=
  iterCore rootfd split env f { st with steps := st.steps + 1 } sys

/-- The `for` loop of `doInRoot`, driven by fuel (the loop of the source has
no bound of its own; fuel exhaustion surfaces as the model artifact
`Out.out`). -/
def run {T : Type} (rootfd : Fd) (split : SplitF) (env : EnvF) (f : LeafF T) :
    Nat → RSt → Sys → Out T × RSt × Sys
  | 0, st, sys => (Out.out, st, sys)
  | fuel + 1, st, sys =>
    match iter rootfd split env f st sys with
    | IterRes.ret o st2 sys2 => (o, st2, sys2)
    | IterRes.cont st2 sys2 => run rootfd split env f fuel st2 sys2

/-- `doInRoot`: acquire the handle (fail with `ErrClosed` when already
closed), split the path, run the resolution loop from the root descriptor
with zeroed counters, then release any non-root descriptor still held and
release the handle reference (the two deferred actions, in their order). -/
def doInRoot {T : Type} (fuel : Nat) (closed : Bool) (rootfd : Fd) (split : SplitF)
    (env : EnvF) (f : LeafF T) (name : String) (sys : Sys) : Out T × Sys :=
  if closed then (Out.err Err.errClosed, emit sys Ev.increfFail)
  else
    let sys1 := emit sys Ev.increfOk
    match split name [] [] with
    | Except.error e => (Out.err e, emit sys1 Ev.decref)
    | Except.ok (parts, sfx) =>
      match run rootfd split env f fuel (RSt.mk parts sfx 0 0 0 0 rootfd) sys1 with
      | (o, st, sys2) => (o, emit (closeDir rootfd st.dirfd sys2) Ev.decref)

/-- State of the `root` handle: `refs` (count of in-flight operations), the
one-shot `closed` flag, and `closeCount`, the number of times
`syscall.Close(fd)` has been invoked on the underlying descriptor. -/
structure Root where
  refs : Nat
  closed : Bool
  closeCount : Nat
deriving DecidableEq, Repr

/-- `root.Close`: close the descriptor now if not yet closed and no operation
holds a reference, then set the flag (and stop the cleanup, which the model
does not track). -/
def Root.Close (r : Root) : Root :=
  { refs := r.refs
    closed := true
    closeCount := if ¬ r.closed ∧ r.refs = 0 then r.closeCount + 1 else r.closeCount }

/-- `root.incref`: fail with `ErrClosed` when closed, otherwise count the new
reference. -/
def Root.incref (r : Root) : Root × Option Err :=
  if r.closed then (r, some Err.errClosed)
  else ({ r with refs := r.refs + 1 }, none)

/-- `root.decref`: panic (`none`) on an unbalanced release, otherwise drop
the reference and close the descriptor when this was the last reference
after the handle was closed. -/
def Root.decref (r : Root) : Option Root :=
  if r.refs = 0 then none
  else
    some { refs := r.refs - 1
           closed := r.closed
           closeCount := if r.closed ∧ r.refs - 1 = 0 then r.closeCount + 1 else r.closeCount }

/-- The three operations that touch the handle's shared state; the mutex of
the source serializes them, so an interleaving is a sequence of these. -/
inductive RootOp where
  | closeOp
  | increfOp
  | decrefOp
deriving DecidableEq, Repr

/-- Apply one operation to the handle state (`none` is the refcount panic). -/
def rootStep (r : Root) : RootOp → Option Root
  | RootOp.closeOp => some (Root.Close r)
  | RootOp.increfOp => some (Root.incref r).1
  | RootOp.decrefOp => Root.decref r

/-- Run a sequence of handle operations. -/
def rootRun : Root → List RootOp → Option Root
  | r, [] => some r
  | r, op :: ops =>
    match rootStep r op with
    | some r2 => rootRun r2 ops
    | none => none

/-- A freshly opened root handle: no references, not closed, descriptor not
yet released. -/
def rootInit : Root := Root.mk 0 false 0

/-- Splits a character list on separators, dropping empty segments
(accumulator holds the current segment, reversed). -/
def splitCompsAux : List Char → List Char → List String
  | [], acc => if acc = [] then [] else [String.mk acc.reverse]
  | c :: cs, acc =>
    if c = '/' then
      if acc = [] then splitCompsAux cs []
      else String.mk acc.reverse :: splitCompsAux cs []
    else splitCompsAux cs (c :: acc)

/-- Modelled from the spec: the Path Splitter `splitPathInRoot`, whose source
is not part of this repository.  Per the spec it is purely syntactic: it
rejects an empty path, an absolute target (which would escape the root) and
an embedded NUL byte; otherwise it produces the component list of the path,
joined between the already-consumed prefix and the unconsumed suffix, plus
the run of trailing separator characters of the final component. -/
def splitPathInRoot (s : String) (pre suf : List String) :
    Except Err (List String × String) :=
  match s.data with
  | [] => Except.error Err.eINVAL
  | c :: _ =>
    if c = '/' then Except.error Err.ePathEscapes
    else if s.data.any (fun ch => ch = Char.ofNat 0) then Except.error Err.eINVAL
    else
      Except.ok (pre ++ splitCompsAux s.data [] ++ suf,
        String.mk (s.data.reverse.takeWhile (fun ch => ch = '/')))

/-- `IsPathSeparator` on the unix build: the slash. -/
def IsPathSeparator (c : Char) : Bool := c = '/'

/-- The trailing-separator stripping loop at the top of `rootRemoveAll`. -/
def stripTrailingSeps (name : String) : String :=
  String.mk ((name.data.reverse.dropWhile (fun c => IsPathSeparator c)).reverse)

/-- Modelled from the spec: `endsWithDot`, defined outside this source file;
per the spec and its use here it recognizes a path whose final component is
the dot (the bare dot, or a path ending in separator-dot). -/
def endsWithDot (p : String) : Bool :=
  p = "." || p.data.reverse.take 2 = ['.', '/']

/-- `rootRemoveAll`: strip trailing separators, reject a name that then ends
with a dot component with `EINVAL` before resolving anything, otherwise
resolve and apply the recursive-remove leaf, downgrading a not-exist failure
to success. -/
def rootRemoveAll (fuel : Nat) (closed : Bool) (rootfd : Fd) (split : SplitF) (env : EnvF)
    (f : LeafF Unit) (name : String) (sys : Sys) : Out Unit × Sys :=
  let nm := stripTrailingSeps name
  if endsWithDot nm then (Out.err Err.eINVAL, sys)
  else
    match doInRoot fuel closed rootfd split env f nm sys with
    | (Out.err e, sys2) =>
      if e = Err.eNOENT then (Out.done (), sys2) else (Out.err e, sys2)
    | z => z

/-- The innermost leaf of rename/link: the two-parent primitive, invoked with
the old parent (captured by the closure) and the new parent (the current
descriptor of the nested resolution).  It records the invocation event and
returns, as its value, whether both parent descriptors were live at that
moment — the validity requirement of the real `renameat`/`linkat`. -/
def primLeaf (isRename : Bool) (oldparent : Fd) (oldname : String) : LeafF Bool :=
  fun newparent newname sys =>
    (LeafRes.ok (decide (oldparent ∈ sys.live) && decide (newparent ∈ sys.live)),
     emit sys (if isRename then Ev.renameatEv oldparent oldname newparent newname
               else Ev.linkatEv oldparent oldname newparent newname))

/-- The leaf action of the outer resolution of rename/link: resolve the new
path, nested, with the two-parent primitive as its leaf; the nested call's
error becomes the outer leaf's error (the model artifacts map to
pass-through errors). -/
def renameLeaf (fuel2 : Nat) (rootfd : Fd) (split : SplitF) (env : EnvF) (isRename : Bool)
    (newname : String) : LeafF Bool :=
  fun oldparent oldname sys =>
    match doInRoot fuel2 false rootfd split env (primLeaf isRename oldparent oldname)
        newname sys with
    | (Out.done b, sys2) => (LeafRes.ok b, sys2)
    | (Out.err e, sys2) => (LeafRes.fail e, sys2)
    | (Out.crash, sys2) => (LeafRes.fail (Err.other 101), sys2)
    | (Out.out, sys2) => (LeafRes.fail (Err.other 102), sys2)

/-- `rootRename`: resolve the old path; nested inside its leaf action,
resolve the new path and invoke the two-parent rename primitive. -/
def rootRename (fuel fuel2 : Nat) (rootfd : Fd) (split : SplitF) (env : EnvF)
    (oldname newname : String) (sys : Sys) : Out Bool × Sys :=
  doInRoot fuel false rootfd split env (renameLeaf fuel2 rootfd split env true newname)
    oldname sys

/-- `rootLink`, symmetric to `rootRename` with the link primitive. -/
def rootLink (fuel fuel2 : Nat) (rootfd : Fd) (split : SplitF) (env : EnvF)
    (oldname newname : String) (sys : Sys) : Out Bool × Sys :=
  doInRoot fuel false rootfd split env (renameLeaf fuel2 rootfd split env false newname)
    oldname sys

/-- Number of symlink hops recorded in a trace. -/
def hopCount (l : List Ev) : Nat := (l.filter (fun e => e = Ev.hop)).length

/-- The system state at the moment a root is opened: descriptor 0 is the
root's own and is live; fresh descriptors start at 1. -/
def sysInit : Sys := Sys.mk 1 [0] []

/-- An environment whose opens all fail with not-exist (used in witnesses). -/
def env0 : EnvF := fun _ _ _ => OpenOut.fail Err.eNOENT

/-- An environment whose opens all succeed (used in witnesses). -/
def envOk : EnvF := fun _ _ _ => OpenOut.ok

/-- A pure leaf that always fails with not-exist (used in witnesses). -/
def lenv0 {T : Type} : Fd → String → Sys → LeafRes T := fun _ _ _ => LeafRes.fail Err.eNOENT

/-- A leaf action that always fails with not-exist (used in witnesses). -/
def leaf0 {T : Type} : LeafF T := leafOfEnv lenv0

/-- A leaf action that always succeeds (used in witnesses). -/
def leafDone : LeafF Unit := leafOfEnv (fun _ _ _ => LeafRes.ok ())

/-- A path of three hundred dot-dot segments. -/
def dotsName : String := String.intercalate ("/") (List.replicate 300 (".."))

/-- No budget-abort event has been recorded. -/
def noBudget (sys : Sys) : Prop := ∀ s r, Ev.budgetAbort s r ∉ sys.trace

/-- How the system state may change under a resolution fragment: the
fresh-descriptor counter never decreases, the trace only grows, and every
descriptor below `n0` that was open stays open. -/
def SysEvolves (n0 : Fd) (sys sys2 : Sys) : Prop :=
  sys.nextFd ≤ sys2.nextFd ∧ (∃ evs, sys2.trace = sys.trace ++ evs) ∧
    (∀ fd, fd ∈ sys.live → fd < n0 → fd ∈ sys2.live)

/-- A leaf action that behaves on the system state like a nested operation:
it evolves the state, preserving every descriptor open at call time that
lies below the call-time fresh-descriptor counter. -/
def LeafPres {T : Type} (f : LeafF T) : Prop :=
  ∀ d nm sys r sys2, f d nm sys = (r, sys2) → SysEvolves sys.nextFd sys sys2

/-- Descriptor-range invariant of one resolution: the allocator counter is
at least `n0`, and the current directory descriptor is the root's own or was
allocated during this run (at least `n0`, below the counter). -/
def DirOk (rootfd n0 : Fd) (st : RSt) (sys : Sys) : Prop :=
  n0 ≤ sys.nextFd ∧ (st.dirfd = rootfd ∨ (n0 ≤ st.dirfd ∧ st.dirfd < sys.nextFd))

/-- Liveness invariant for the rename/link proofs: the descriptor range
invariant, plus the root descriptor, the captured old-parent descriptor and
the current directory descriptor are all live, with the root and the old
parent allocated before this resolution began. -/
def RenInv (rootfd n0 op : Fd) (st : RSt) (sys : Sys) : Prop :=
  DirOk rootfd n0 st sys ∧ rootfd < n0 ∧ op < n0 ∧
    rootfd ∈ sys.live ∧ op ∈ sys.live ∧ st.dirfd ∈ sys.live

/-- The invariant tying the symlink counter to the recorded hops: the counter
equals the number of hops in the trace, it has not passed the maximum, and no
`ELOOP` abort has been recorded. -/
def symInv (st : RSt) (sys : Sys) : Prop :=
  hopCount sys.trace = st.symlinks ∧ st.symlinks ≤ rootMaxSymlinks ∧
    Ev.eloopAbort ∉ sys.trace

/-- Soundness of a splitter, as the spec describes `splitPathInRoot`: the
result joins the given prefix and suffix around the (at least one, when the
suffix is empty) components of the target. -/
def SplitSound (split : SplitF) : Prop :=
  ∀ s pre suf ps sep, split s pre suf = Except.ok (ps, sep) →
    pre.length + suf.length ≤ ps.length ∧ (suf = [] → pre.length < ps.length)

theorem run_rec {T : Type} (rootfd : Fd) (split : SplitF) (env : EnvF) (f : LeafF T)
    (Inv : RSt → Sys → Prop) (Q : Out T → RSt → Sys → Prop)
    (hret : ∀ st sys o st2 sys2, Inv st sys →
        iter rootfd split env f st sys = IterRes.ret o st2 sys2 → Q o st2 sys2)
    (hcont : ∀ st sys st2 sys2, Inv st sys →
        iter rootfd split env f st sys = IterRes.cont st2 sys2 → Inv st2 sys2)
    (hout : ∀ st sys, Inv st sys → Q Out.out st sys) :
    ∀ (fuel : Nat) (st : RSt) (sys : Sys), Inv st sys →
      Q (run rootfd split env f fuel st sys).1 (run rootfd split env f fuel st sys).2.1
        (run rootfd split env f fuel st sys).2.2 := by
  intro fuel
  induction fuel with
  | zero =>
    intro st sys h
    simpa [run] using hout st sys h
  | succ n ih =>
    intro st sys h
    cases hi : iter rootfd split env f st sys with
    | ret o st2 sys2 =>
      have hrw : run rootfd split env f (n + 1) st sys = (o, st2, sys2) := by
        simp [run, hi]
      rw [hrw]
      exact hret st sys o st2 sys2 h hi
    | cont st2 sys2 =>
      have hrw : run rootfd split env f (n + 1) st sys = run rootfd split env f n st2 sys2 := by
        simp [run, hi]
      rw [hrw]
      exact ih st2 sys2 (hcont st sys st2 sys2 h hi)

theorem ddCount_replicate (n : Nat) : ddCount (List.replicate n ("..")) = n := by
  induction n with
  | zero => simp [ddCount, List.replicate]
  | succ n ih => simp [ddCount, List.replicate, ih]

theorem mem_emit_trace {e : Ev} {sys : Sys} {ev : Ev} (h : e ∈ (emit sys ev).trace) :
    e ∈ sys.trace ∨ e = ev := by
  simpa [emit] using h

theorem mem_closeDir_trace {e : Ev} {rootfd d : Fd} {sys : Sys}
    (h : e ∈ (closeDir rootfd d sys).trace) : e ∈ sys.trace ∨ e = Ev.closedFd d := by
  unfold closeDir at h
  split at h
  · exact Or.inl h
  · simpa using h

theorem mem_allocFd_trace {e : Ev} {parent : Fd} {p : String} {sys : Sys}
    (h : e ∈ (allocFd parent p sys).trace) :
    e ∈ sys.trace ∨ e = Ev.opened parent p sys.nextFd := by
  simpa [allocFd] using h

theorem symlinkStep_elim {T : Type} {rootfd : Fd} {split : SplitF} {st : RSt} {sys : Sys}
    {t : String} {r : IterRes T} {C : Prop}
    (h : symlinkStep rootfd split st sys t = r)
    (heloop : rootMaxSymlinks < st.symlinks + 1 →
      r = IterRes.ret (Out.err Err.eLOOP)
          (RSt.mk st.parts st.suffixSep st.i st.steps st.restarts (st.symlinks + 1) st.dirfd)
          (emit (emit sys Ev.hop) Ev.eloopAbort) → C)
    (herr : ∀ e, st.symlinks + 1 ≤ rootMaxSymlinks →
      split t (st.parts.take st.i) (st.parts.drop (st.i + 1)) = Except.error e →
      r = IterRes.ret (Out.err e)
          (RSt.mk st.parts st.suffixSep st.i st.steps st.restarts (st.symlinks + 1) st.dirfd)
          (emit sys Ev.hop) → C)
    (hrestart : ∀ nps nsfx, st.symlinks + 1 ≤ rootMaxSymlinks →
      split t (st.parts.take st.i) (st.parts.drop (st.i + 1)) = Except.ok (nps, nsfx) →
      (nps.length < st.i ∨ ¬ (st.parts.take st.i = nps.take st.i)) →
      r = IterRes.cont
          (RSt.mk nps (if st.i = st.parts.length - 1 then nsfx else st.suffixSep) 0 st.steps
            st.restarts (st.symlinks + 1) rootfd)
          (closeDir rootfd st.dirfd (emit sys Ev.hop)) → C)
    (hkeep : ∀ nps nsfx, st.symlinks + 1 ≤ rootMaxSymlinks →
      split t (st.parts.take st.i) (st.parts.drop (st.i + 1)) = Except.ok (nps, nsfx) →
      ¬ (nps.length < st.i ∨ ¬ (st.parts.take st.i = nps.take st.i)) →
      r = IterRes.cont
          (RSt.mk nps (if st.i = st.parts.length - 1 then nsfx else st.suffixSep) st.i st.steps
            st.restarts (st.symlinks + 1) st.dirfd)
          (emit sys Ev.hop) → C) : C := by
  simp only [symlinkStep] at h
  split at h
  next hmax =>
    exact heloop hmax h.symm
  next hmax =>
    have hmax2 : st.symlinks + 1 ≤ rootMaxSymlinks := Nat.not_lt.mp hmax
    split at h
    next e hs =>
      exact herr e hmax2 hs h.symm
    next nps nsfx hs =>
      split at h
      next hcond =>
        exact hrestart nps nsfx hmax2 hs hcond h.symm
      next hcond =>
        exact hkeep nps nsfx hmax2 hs hcond h.symm

theorem iterCore_elim {T : Type} {rootfd : Fd} {split : SplitF} {env : EnvF} {f : LeafF T}
    {st : RSt} {sys : Sys} {r : IterRes T} {C : Prop}
    (h : iterCore rootfd split env f st sys = r)
    (hbudget : maxSteps < st.steps ∧ maxRestarts < st.restarts →
      r = IterRes.ret (Out.err Err.eNAMETOOLONG) st
          (emit sys (Ev.budgetAbort st.steps st.restarts)) → C)
    (hcrash : st.parts[st.i]? = none → r = IterRes.ret Out.crash st sys → C)
    (hddesc : st.parts[st.i]? = some ("..") → st.i < ddCount (st.parts.drop st.i) →
      r = IterRes.ret (Out.err Err.ePathEscapes)
          (RSt.mk st.parts st.suffixSep st.i st.steps (st.restarts + 1) st.symlinks st.dirfd)
          (emit sys Ev.dotdotRestart) → C)
    (hddcont : st.parts[st.i]? = some ("..") → ddCount (st.parts.drop st.i) ≤ st.i →
      r = IterRes.cont
          (RSt.mk
            (if st.parts.take (st.i - ddCount (st.parts.drop st.i))
                ++ st.parts.drop (st.i + ddCount (st.parts.drop st.i)) = []
             then ["."]
             else st.parts.take (st.i - ddCount (st.parts.drop st.i))
                ++ st.parts.drop (st.i + ddCount (st.parts.drop st.i)))
            st.suffixSep 0 st.steps (st.restarts + 1) st.symlinks rootfd)
          (closeDir rootfd st.dirfd (emit sys Ev.dotdotRestart)) → C)
    (hleafok : ∀ p v sys2, st.parts[st.i]? = some p → ¬ p = ".." →
      st.i = st.parts.length - 1 →
      f st.dirfd (p ++ st.suffixSep) (emit sys (Ev.leafCall st.dirfd (p ++ st.suffixSep))) =
        (LeafRes.ok v, sys2) →
      r = IterRes.ret (Out.done v) st sys2 → C)
    (hleaffail : ∀ p e sys2, st.parts[st.i]? = some p → ¬ p = ".." →
      st.i = st.parts.length - 1 →
      f st.dirfd (p ++ st.suffixSep) (emit sys (Ev.leafCall st.dirfd (p ++ st.suffixSep))) =
        (LeafRes.fail e, sys2) →
      r = IterRes.ret (Out.err e) st sys2 → C)
    (hleafsym : ∀ p t sys2, st.parts[st.i]? = some p → ¬ p = ".." →
      st.i = st.parts.length - 1 →
      f st.dirfd (p ++ st.suffixSep) (emit sys (Ev.leafCall st.dirfd (p ++ st.suffixSep))) =
        (LeafRes.symlink t, sys2) →
      symlinkStep rootfd split st sys2 t = r → C)
    (hopenok : ∀ p, st.parts[st.i]? = some p → ¬ p = ".." →
      ¬ st.i = st.parts.length - 1 → env st.steps st.dirfd p = OpenOut.ok →
      r = IterRes.cont
          (RSt.mk st.parts st.suffixSep (st.i + 1) st.steps st.restarts st.symlinks sys.nextFd)
          (closeDir rootfd st.dirfd (allocFd st.dirfd p sys)) → C)
    (hopenfail : ∀ p e, st.parts[st.i]? = some p → ¬ p = ".." →
      ¬ st.i = st.parts.length - 1 → env st.steps st.dirfd p = OpenOut.fail e →
      r = IterRes.ret (Out.err e) st sys → C)
    (hopensym : ∀ p t, st.parts[st.i]? = some p → ¬ p = ".." →
      ¬ st.i = st.parts.length - 1 → env st.steps st.dirfd p = OpenOut.symlink t →
      symlinkStep rootfd split st sys t = r → C) : C := by
  unfold iterCore at h
  split at h
  next hb =>
    exact hbudget hb h.symm
  next hb =>
    split at h
    next hp =>
      exact hcrash hp h.symm
    next p hp =>
      split at h
      next hdd =>
        subst hdd
        simp only [ddStep] at h
        split at h
        next hlt =>
          exact hddesc hp hlt h.symm
        next hlt =>
          exact hddcont hp (Nat.not_lt.mp hlt) h.symm
      next hdd =>
        split at h
        next hlast =>
          simp only [leafStep] at h
          split at h
          next v sys2 hf =>
            exact hleafok p v sys2 hp hdd hlast hf h.symm
          next e sys2 hf =>
            exact hleaffail p e sys2 hp hdd hlast hf h.symm
          next t sys2 hf =>
            exact hleafsym p t sys2 hp hdd hlast hf h
        next hlast =>
          simp only [openStep] at h
          split at h
          next he =>
            exact hopenok p hp hdd hlast he h.symm
          next e he =>
            exact hopenfail p e hp hdd hlast he h.symm
          next t he =>
            exact hopensym p t hp hdd hlast he h

theorem noBudget_emit {sys : Sys} {ev : Ev} (hnb : noBudget sys)
    (hev : ∀ s r, ¬ ev = Ev.budgetAbort s r) : noBudget (emit sys ev) := by
  intro s r hm
  rcases mem_emit_trace hm with hm | hm
  · exact hnb s r hm
  · exact hev s r hm.symm

theorem noBudget_closeDir {rootfd d : Fd} {sys : Sys} (hnb : noBudget sys) :
    noBudget (closeDir rootfd d sys) := by
  intro s r hm
  rcases mem_closeDir_trace hm with hm | hm
  · exact hnb s r hm
  · exact absurd hm (by simp)

theorem noBudget_allocFd {parent : Fd} {p : String} {sys : Sys} (hnb : noBudget sys) :
    noBudget (allocFd parent p sys) := by
  intro s r hm
  rcases mem_allocFd_trace hm with hm | hm
  · exact hnb s r hm
  · exact absurd hm (by simp)

theorem noBudget_symlinkStep {T : Type} {rootfd : Fd} {split : SplitF} {st : RSt}
    {sys0 : Sys} {t : String} {r : IterRes T} (hnb : noBudget sys0)
    (h : symlinkStep rootfd split st sys0 t = r) :
    (∀ o st2 sys2, r = IterRes.ret o st2 sys2 → noBudget sys2) ∧
    (∀ st2 sys2, r = IterRes.cont st2 sys2 → noBudget sys2) := by
  have hh : noBudget (emit sys0 Ev.hop) := noBudget_emit hnb (by intro s r; simp)
  refine symlinkStep_elim h ?_ ?_ ?_ ?_
  · intro hmax heq
    subst heq
    refine ⟨?_, ?_⟩
    · intro o st2 sys2 he
      injection he with h1 h2 h3
      subst h3
      exact noBudget_emit hh (by intro s r; simp)
    · intro st2 sys2 he
      exact IterRes.noConfusion he
  · intro e hmax hs heq
    subst heq
    refine ⟨?_, ?_⟩
    · intro o st2 sys2 he
      injection he with h1 h2 h3
      subst h3
      exact hh
    · intro st2 sys2 he
      exact IterRes.noConfusion he
  · intro nps nsfx hmax hs hcond heq
    subst heq
    refine ⟨?_, ?_⟩
    · intro o st2 sys2 he
      exact IterRes.noConfusion he
    · intro st2 sys2 he
      injection he with h1 h2
      subst h2
      exact noBudget_closeDir hh
  · intro nps nsfx hmax hs hcond heq
    subst heq
    refine ⟨?_, ?_⟩
    · intro o st2 sys2 he
      exact IterRes.noConfusion he
    · intro st2 sys2 he
      injection he with h1 h2
      subst h2
      exact hh

theorem budget_iter_ret {T : Type} {rootfd : Fd} {split : SplitF} {env : EnvF}
    {g : Fd → String → Sys → LeafRes T} {st st2 : RSt} {sys sys2 : Sys} {o : Out T}
    (hnb : noBudget sys)
    (h : iter rootfd split env (leafOfEnv g) st sys = IterRes.ret o st2 sys2) :
    ∀ s r, Ev.budgetAbort s r ∈ sys2.trace →
      maxSteps < s ∧ maxRestarts < r ∧ s = st2.steps ∧ r = st2.restarts ∧
        o = Out.err Err.eNAMETOOLONG := by
  unfold iter at h
  refine iterCore_elim h ?_ ?_ ?_ ?_ ?_ ?_ ?_ ?_ ?_ ?_
  · intro hb heq
    injection heq with h1 h2 h3
    subst h1
    subst h2
    subst h3
    intro s r hm
    rcases mem_emit_trace hm with hm | hm
    · exact absurd hm (hnb s r)
    · injection hm with hs hr
      subst hs
      subst hr
      exact ⟨hb.1, hb.2, rfl, rfl, rfl⟩
  · intro hp heq
    injection heq with h1 h2 h3
    subst h3
    intro s r hm
    exact absurd hm (hnb s r)
  · intro hp hlt heq
    injection heq with h1 h2 h3
    subst h3
    intro s r hm
    exact absurd hm (noBudget_emit hnb (by intro a b; simp) s r)
  · intro hp hle heq
    exact IterRes.noConfusion heq
  · intro p v s2 hp hdd hlast hf heq
    have hs2 : emit sys (Ev.leafCall st.dirfd (p ++ st.suffixSep)) = s2 :=
      congrArg Prod.snd hf
    injection heq with h1 h2 h3
    subst h3
    intro s r hm
    rw [← hs2] at hm
    exact absurd hm (noBudget_emit hnb (by intro a b; simp) s r)
  · intro p e s2 hp hdd hlast hf heq
    have hs2 : emit sys (Ev.leafCall st.dirfd (p ++ st.suffixSep)) = s2 :=
      congrArg Prod.snd hf
    injection heq with h1 h2 h3
    subst h3
    intro s r hm
    rw [← hs2] at hm
    exact absurd hm (noBudget_emit hnb (by intro a b; simp) s r)
  · intro p t s2 hp hdd hlast hf hsym
    have hs2 : emit sys (Ev.leafCall st.dirfd (p ++ st.suffixSep)) = s2 :=
      congrArg Prod.snd hf
    have hnb2 : noBudget s2 := by
      rw [← hs2]
      exact noBudget_emit hnb (by intro a b; simp)
    intro s r hm
    exact absurd hm ((noBudget_symlinkStep hnb2 hsym).1 o st2 sys2 rfl s r)
  · intro p hp hdd hlast he heq
    exact IterRes.noConfusion heq
  · intro p e hp hdd hlast he heq
    injection heq with h1 h2 h3
    subst h3
    intro s r hm
    exact absurd hm (hnb s r)
  · intro p t hp hdd hlast he hsym
    intro s r hm
    exact absurd hm ((noBudget_symlinkStep hnb hsym).1 o st2 sys2 rfl s r)

theorem budget_iter_cont {T : Type} {rootfd : Fd} {split : SplitF} {env : EnvF}
    {g : Fd → String → Sys → LeafRes T} {st st2 : RSt} {sys sys2 : Sys}
    (hnb : noBudget sys)
    (h : iter rootfd split env (leafOfEnv g) st sys = IterRes.cont st2 sys2) :
    noBudget sys2 := by
  unfold iter at h
  refine iterCore_elim h ?_ ?_ ?_ ?_ ?_ ?_ ?_ ?_ ?_ ?_
  · intro hb heq
    exact IterRes.noConfusion heq
  · intro hp heq
    exact IterRes.noConfusion heq
  · intro hp hlt heq
    exact IterRes.noConfusion heq
  · intro hp hle heq
    injection heq with h1 h2
    subst h2
    exact noBudget_closeDir (noBudget_emit hnb (by intro a b; simp))
  · intro p v s2 hp hdd hlast hf heq
    exact IterRes.noConfusion heq
  · intro p e s2 hp hdd hlast hf heq
    exact IterRes.noConfusion heq
  · intro p t s2 hp hdd hlast hf hsym
    have hs2 : emit sys (Ev.leafCall st.dirfd (p ++ st.suffixSep)) = s2 :=
      congrArg Prod.snd hf
    have hnb2 : noBudget s2 := by
      rw [← hs2]
      exact noBudget_emit hnb (by intro a b; simp)
    exact (noBudget_symlinkStep hnb2 hsym).2 st2 sys2 rfl
  · intro p hp hdd hlast he heq
    injection heq with h1 h2
    subst h2
    exact noBudget_closeDir (noBudget_allocFd hnb)
  · intro p e hp hdd hlast he heq
    exact IterRes.noConfusion heq
  · intro p t hp hdd hlast he hsym
    exact (noBudget_symlinkStep hnb hsym).2 st2 sys2 rfl

/-- C3: during one resolution (trace starting empty, counters starting at
zero), every budget abort recorded in the trace happened with the step
counter strictly above 255 and the restart counter strictly above 8
simultaneously, and the run's result is then `ENAMETOOLONG`; conversely, in
every execution where at the end only one of the two counters has passed its
ceiling (the counters never decrease, so the final values bound the whole
run), no budget abort happened. -/
theorem budget_abort_iff_both_exceeded {T : Type} (fuel : Nat) (rootfd : Fd)
    (split : SplitF) (env : EnvF) (g : Fd → String → Sys → LeafRes T)
    (parts : List String) (sfx : String) (sys : Sys) (z : Out T × RSt × Sys)
    (h0 : sys.trace = [])
    (hz : run rootfd split env (leafOfEnv g) fuel (RSt.mk parts sfx 0 0 0 0 rootfd) sys = z) :
    (∀ s r, Ev.budgetAbort s r ∈ z.2.2.trace →
       maxSteps < s ∧ maxRestarts < r ∧ s ≤ z.2.1.steps ∧ r ≤ z.2.1.restarts ∧
         z.1 = Out.err Err.eNAMETOOLONG)
    ∧ ((z.2.1.steps ≤ maxSteps ∨ z.2.1.restarts ≤ maxRestarts) →
       ∀ s r, Ev.budgetAbort s r ∉ z.2.2.trace) := by
  subst hz
  have hI : noBudget sys := by
    intro s r hm
    rw [h0] at hm
    exact absurd hm (List.not_mem_nil _)
  have hQ := run_rec rootfd split env (leafOfEnv g) (fun _ sysX => noBudget sysX)
    (fun o st2 sys2 => ∀ s r, Ev.budgetAbort s r ∈ sys2.trace →
       maxSteps < s ∧ maxRestarts < r ∧ s = st2.steps ∧ r = st2.restarts ∧
         o = Out.err Err.eNAMETOOLONG)
    (fun st sysX o st2 sys2 hInv hit => budget_iter_ret hInv hit)
    (fun st sysX st2 sys2 hInv hit => budget_iter_cont hInv hit)
    (fun st sysX hInv => fun s r hm => absurd hm (hInv s r))
    fuel (RSt.mk parts sfx 0 0 0 0 rootfd) sys hI
  constructor
  · intro s r hm
    obtain ⟨a, b, c, d, e⟩ := hQ s r hm
    exact ⟨a, b, Nat.le_of_eq c, Nat.le_of_eq d, e⟩
  · intro hb s r hm
    obtain ⟨a, b, c, d, e⟩ := hQ s r hm
    rcases hb with hb | hb
    · omega
    · omega

theorem budget_abort_iff_both_exceeded_witness :
    Ev.budgetAbort 1 1 ∉
      (run 0 splitPathInRoot env0 (leafOfEnv (lenv0 (T := Unit))) 5
        (RSt.mk ["a"] "" 0 0 0 0 0) sysInit).2.2.trace := by
  have h := budget_abort_iff_both_exceeded (T := Unit) 5 0 splitPathInRoot env0 lenv0
    ["a"] "" sysInit
    (run 0 splitPathInRoot env0 (leafOfEnv (lenv0 (T := Unit))) 5
      (RSt.mk ["a"] "" 0 0 0 0 0) sysInit) rfl rfl
  exact h.2 (Or.inl (by decide)) 1 1

theorem hopCount_append (l1 l2 : List Ev) :
    hopCount (l1 ++ l2) = hopCount l1 + hopCount l2 := by
  simp [hopCount, List.filter_append]

theorem hopCount_single (ev : Ev) : hopCount [ev] = if ev = Ev.hop then 1 else 0 := by
  by_cases h : ev = Ev.hop
  · subst h
    simp [hopCount]
  · simp [hopCount, h]

theorem hopCount_emit (sys : Sys) (ev : Ev) :
    hopCount (emit sys ev).trace = hopCount sys.trace + (if ev = Ev.hop then 1 else 0) := by
  simp [emit, hopCount_append, hopCount_single]

theorem hopCount_closeDir (rootfd d : Fd) (sys : Sys) :
    hopCount (closeDir rootfd d sys).trace = hopCount sys.trace := by
  unfold closeDir
  split
  · rfl
  · simp [hopCount_append, hopCount_single]

theorem hopCount_allocFd (parent : Fd) (p : String) (sys : Sys) :
    hopCount (allocFd parent p sys).trace = hopCount sys.trace := by
  simp [allocFd, hopCount_append, hopCount_single]

theorem noEloop_emit {sys : Sys} {ev : Ev} (h : Ev.eloopAbort ∉ sys.trace)
    (hev : ¬ ev = Ev.eloopAbort) : Ev.eloopAbort ∉ (emit sys ev).trace := by
  intro hm
  rcases mem_emit_trace hm with hm | hm
  · exact h hm
  · exact hev hm.symm

theorem noEloop_closeDir {rootfd d : Fd} {sys : Sys} (h : Ev.eloopAbort ∉ sys.trace) :
    Ev.eloopAbort ∉ (closeDir rootfd d sys).trace := by
  intro hm
  rcases mem_closeDir_trace hm with hm | hm
  · exact h hm
  · exact absurd hm (by simp)

theorem noEloop_allocFd {parent : Fd} {p : String} {sys : Sys}
    (h : Ev.eloopAbort ∉ sys.trace) : Ev.eloopAbort ∉ (allocFd parent p sys).trace := by
  intro hm
  rcases mem_allocFd_trace hm with hm | hm
  · exact h hm
  · exact absurd hm (by simp)

theorem symInv_symlinkStep {T : Type} {rootfd : Fd} {split : SplitF} {st : RSt}
    {sys0 : Sys} {t : String} {r : IterRes T} (hI : symInv st sys0)
    (h : symlinkStep rootfd split st sys0 t = r) :
    (∀ o st2 sys2, r = IterRes.ret o st2 sys2 →
       hopCount sys2.trace = st2.symlinks ∧
       (Ev.eloopAbort ∈ sys2.trace →
         o = Out.err Err.eLOOP ∧ hopCount sys2.trace = rootMaxSymlinks + 1) ∧
       (Ev.eloopAbort ∉ sys2.trace → hopCount sys2.trace ≤ rootMaxSymlinks)) ∧
    (∀ st2 sys2, r = IterRes.cont st2 sys2 → symInv st2 sys2) := by
  obtain ⟨hc, hle, hne⟩ := hI
  refine symlinkStep_elim h ?_ ?_ ?_ ?_
  · intro hmax heq
    subst heq
    constructor
    · intro o st2 sys2 he
      injection he with h1 h2 h3
      subst h1
      subst h2
      subst h3
      have hcount : hopCount (emit (emit sys0 Ev.hop) Ev.eloopAbort).trace =
          hopCount sys0.trace + 1 := by
        simp [hopCount_emit]
      refine ⟨?_, ?_, ?_⟩
      · simp [hcount, hc]
      · intro _
        constructor
        · rfl
        · simp only [hcount, hc]
          omega
      · intro hnm
        exact absurd (by simp [emit] : Ev.eloopAbort ∈ (emit (emit sys0 Ev.hop) Ev.eloopAbort).trace) hnm
    · intro st2 sys2 he
      exact IterRes.noConfusion he
  · intro e hmax2 hs heq
    subst heq
    constructor
    · intro o st2 sys2 he
      injection he with h1 h2 h3
      subst h1
      subst h2
      subst h3
      refine ⟨?_, ?_, ?_⟩
      · simp [hopCount_emit, hc]
      · intro hm
        exact absurd hm (noEloop_emit hne (by simp))
      · intro _
        simp only [hopCount_emit, hc]
        simpa using hmax2
    · intro st2 sys2 he
      exact IterRes.noConfusion he
  · intro nps nsfx hmax2 hs hcond heq
    subst heq
    constructor
    · intro o st2 sys2 he
      exact IterRes.noConfusion he
    · intro st2 sys2 he
      injection he with h1 h2
      subst h1
      subst h2
      refine ⟨?_, ?_, ?_⟩
      · simp [hopCount_closeDir, hopCount_emit, hc]
      · simpa using hmax2
      · exact noEloop_closeDir (noEloop_emit hne (by simp))
  · intro nps nsfx hmax2 hs hcond heq
    subst heq
    constructor
    · intro o st2 sys2 he
      exact IterRes.noConfusion he
    · intro st2 sys2 he
      injection he with h1 h2
      subst h1
      subst h2
      refine ⟨?_, ?_, ?_⟩
      · simp [hopCount_emit, hc]
      · simpa using hmax2
      · exact noEloop_emit hne (by simp)

theorem symInv_iter_ret {T : Type} {rootfd : Fd} {split : SplitF} {env : EnvF}
    {g : Fd → String → Sys → LeafRes T} {st st2 : RSt} {sys sys2 : Sys} {o : Out T}
    (hI : symInv st sys)
    (h : iter rootfd split env (leafOfEnv g) st sys = IterRes.ret o st2 sys2) :
    hopCount sys2.trace = st2.symlinks ∧
    (Ev.eloopAbort ∈ sys2.trace →
      o = Out.err Err.eLOOP ∧ hopCount sys2.trace = rootMaxSymlinks + 1) ∧
    (Ev.eloopAbort ∉ sys2.trace → hopCount sys2.trace ≤ rootMaxSymlinks) := by
  obtain ⟨hc, hle, hne⟩ := hI
  have hI2 : symInv (RSt.mk st.parts st.suffixSep st.i (st.steps + 1) st.restarts
      st.symlinks st.dirfd) sys := ⟨hc, hle, hne⟩
  unfold iter at h
  refine iterCore_elim h ?_ ?_ ?_ ?_ ?_ ?_ ?_ ?_ ?_ ?_
  · intro hb heq
    injection heq with h1 h2 h3
    subst h1
    subst h2
    subst h3
    refine ⟨by simp [hopCount_emit, hc], ?_, ?_⟩
    · intro hm
      exact absurd hm (noEloop_emit hne (by simp))
    · intro _
      simpa [hopCount_emit, hc] using hle
  · intro hp heq
    injection heq with h1 h2 h3
    subst h1
    subst h2
    subst h3
    exact ⟨hc, fun hm => absurd hm hne, fun _ => hc ▸ hle⟩
  · intro hp hlt heq
    injection heq with h1 h2 h3
    subst h1
    subst h2
    subst h3
    refine ⟨by simp [hopCount_emit, hc], ?_, ?_⟩
    · intro hm
      exact absurd hm (noEloop_emit hne (by simp))
    · intro _
      simpa [hopCount_emit, hc] using hle
  · intro hp hle2 heq
    exact IterRes.noConfusion heq
  · intro p v s2 hp hdd hlast hf heq
    have hs2 : emit sys (Ev.leafCall st.dirfd (p ++ st.suffixSep)) = s2 :=
      congrArg Prod.snd hf
    injection heq with h1 h2 h3
    subst h1
    subst h2
    subst h3
    rw [← hs2]
    refine ⟨by simp [hopCount_emit, hc], ?_, ?_⟩
    · intro hm
      exact absurd hm (noEloop_emit hne (by simp))
    · intro _
      simpa [hopCount_emit, hc] using hle
  · intro p e s2 hp hdd hlast hf heq
    have hs2 : emit sys (Ev.leafCall st.dirfd (p ++ st.suffixSep)) = s2 :=
      congrArg Prod.snd hf
    injection heq with h1 h2 h3
    subst h1
    subst h2
    subst h3
    rw [← hs2]
    refine ⟨by simp [hopCount_emit, hc], ?_, ?_⟩
    · intro hm
      exact absurd hm (noEloop_emit hne (by simp))
    · intro _
      simpa [hopCount_emit, hc] using hle
  · intro p t s2 hp hdd hlast hf hsym
    have hs2 : emit sys (Ev.leafCall st.dirfd (p ++ st.suffixSep)) = s2 :=
      congrArg Prod.snd hf
    have hI3 : symInv (RSt.mk st.parts st.suffixSep st.i (st.steps + 1) st.restarts
        st.symlinks st.dirfd) s2 := by
      rw [← hs2]
      exact ⟨by simp [hopCount_emit, hc], hle, noEloop_emit hne (by simp)⟩
    exact (symInv_symlinkStep hI3 hsym).1 o st2 sys2 rfl
  · intro p hp hdd hlast he heq
    exact IterRes.noConfusion heq
  · intro p e hp hdd hlast he heq
    injection heq with h1 h2 h3
    subst h1
    subst h2
    subst h3
    exact ⟨hc, fun hm => absurd hm hne, fun _ => hc ▸ hle⟩
  · intro p t hp hdd hlast he hsym
    exact (symInv_symlinkStep hI2 hsym).1 o st2 sys2 rfl

theorem symInv_iter_cont {T : Type} {rootfd : Fd} {split : SplitF} {env : EnvF}
    {g : Fd → String → Sys → LeafRes T} {st st2 : RSt} {sys sys2 : Sys}
    (hI : symInv st sys)
    (h : iter rootfd split env (leafOfEnv g) st sys = IterRes.cont st2 sys2) :
    symInv st2 sys2 := by
  obtain ⟨hc, hle, hne⟩ := hI
  have hI2 : symInv (RSt.mk st.parts st.suffixSep st.i (st.steps + 1) st.restarts
      st.symlinks st.dirfd) sys := ⟨hc, hle, hne⟩
  unfold iter at h
  refine iterCore_elim h ?_ ?_ ?_ ?_ ?_ ?_ ?_ ?_ ?_ ?_
  · intro hb heq
    exact IterRes.noConfusion heq
  · intro hp heq
    exact IterRes.noConfusion heq
  · intro hp hlt heq
    exact IterRes.noConfusion heq
  · intro hp hle2 heq
    injection heq with h1 h2
    subst h1
    subst h2
    refine ⟨?_, hle, ?_⟩
    · simp [hopCount_closeDir, hopCount_emit, hc]
    · exact noEloop_closeDir (noEloop_emit hne (by simp))
  · intro p v s2 hp hdd hlast hf heq
    exact IterRes.noConfusion heq
  · intro p e s2 hp hdd hlast hf heq
    exact IterRes.noConfusion heq
  · intro p t s2 hp hdd hlast hf hsym
    have hs2 : emit sys (Ev.leafCall st.dirfd (p ++ st.suffixSep)) = s2 :=
      congrArg Prod.snd hf
    have hI3 : symInv (RSt.mk st.parts st.suffixSep st.i (st.steps + 1) st.restarts
        st.symlinks st.dirfd) s2 := by
      rw [← hs2]
      exact ⟨by simp [hopCount_emit, hc], hle, noEloop_emit hne (by simp)⟩
    exact (symInv_symlinkStep hI3 hsym).2 st2 sys2 rfl
  · intro p hp hdd hlast he heq
    injection heq with h1 h2
    subst h1
    subst h2
    refine ⟨?_, hle, ?_⟩
    · simp [hopCount_closeDir, hopCount_allocFd, hc]
    · exact noEloop_closeDir (noEloop_allocFd hne)
  · intro p e hp hdd hlast he heq
    exact IterRes.noConfusion heq
  · intro p t hp hdd hlast he hsym
    exact (symInv_symlinkStep hI2 hsym).2 st2 sys2 rfl

/-- C5: during one resolution (trace starting empty, counters starting at
zero), the symlink counter always equals the number of symlink hops recorded
in the trace (each Symlink Signal increments it), and the `ELOOP` abort
fires exactly when that counter passes `rootMaxSymlinks`: a run with at most
`rootMaxSymlinks` hops never aborts for that reason, and a run that reaches
`rootMaxSymlinks + 1` hops has aborted with `ELOOP`. -/
theorem symlink_limit_spec {T : Type} (fuel : Nat) (rootfd : Fd) (split : SplitF)
    (env : EnvF) (g : Fd → String → Sys → LeafRes T) (parts : List String) (sfx : String)
    (sys : Sys) (z : Out T × RSt × Sys) (h0 : sys.trace = [])
    (hz : run rootfd split env (leafOfEnv g) fuel (RSt.mk parts sfx 0 0 0 0 rootfd) sys = z) :
    hopCount z.2.2.trace = z.2.1.symlinks
    ∧ (Ev.eloopAbort ∈ z.2.2.trace →
        z.1 = Out.err Err.eLOOP ∧ hopCount z.2.2.trace = rootMaxSymlinks + 1)
    ∧ (hopCount z.2.2.trace ≤ rootMaxSymlinks → Ev.eloopAbort ∉ z.2.2.trace)
    ∧ (hopCount z.2.2.trace = rootMaxSymlinks + 1 →
        Ev.eloopAbort ∈ z.2.2.trace ∧ z.1 = Out.err Err.eLOOP) := by
  subst hz
  have hI : symInv (RSt.mk parts sfx 0 0 0 0 rootfd) sys := by
    refine ⟨?_, by simp, ?_⟩
    · simp [h0, hopCount]
    · simp [h0]
  have hQ := run_rec rootfd split env (leafOfEnv g) symInv
    (fun o st2 sys2 =>
      hopCount sys2.trace = st2.symlinks ∧
      (Ev.eloopAbort ∈ sys2.trace →
        o = Out.err Err.eLOOP ∧ hopCount sys2.trace = rootMaxSymlinks + 1) ∧
      (Ev.eloopAbort ∉ sys2.trace → hopCount sys2.trace ≤ rootMaxSymlinks))
    (fun st sysX o st2 sys2 hInv hit => symInv_iter_ret hInv hit)
    (fun st sysX st2 sys2 hInv hit => symInv_iter_cont hInv hit)
    (fun st sysX hInv =>
      ⟨hInv.1, fun hm => absurd hm hInv.2.2, fun _ => hInv.1 ▸ hInv.2.1⟩)
    fuel (RSt.mk parts sfx 0 0 0 0 rootfd) sys hI
  obtain ⟨q1, q2, q3⟩ := hQ
  refine ⟨q1, q2, ?_, ?_⟩
  · intro hcnt hm
    have := (q2 hm).2
    omega
  · intro hcnt
    by_cases hm : Ev.eloopAbort ∈
        (run rootfd split env (leafOfEnv g) fuel (RSt.mk parts sfx 0 0 0 0 rootfd)
          sys).2.2.trace
    · exact ⟨hm, (q2 hm).1⟩
    · have := q3 hm
      omega

theorem symlink_limit_spec_witness :
    Ev.eloopAbort ∉
      (run 0 splitPathInRoot envOk (leafOfEnv (lenv0 (T := Unit))) 4
        (RSt.mk ["a", "b"] "" 0 0 0 0 0) sysInit).2.2.trace := by
  have h := symlink_limit_spec (T := Unit) 4 0 splitPathInRoot envOk lenv0
    ["a", "b"] "" sysInit
    (run 0 splitPathInRoot envOk (leafOfEnv (lenv0 (T := Unit))) 4
      (RSt.mk ["a", "b"] "" 0 0 0 0 0) sysInit) rfl rfl
  exact h.2.2.1 (by decide)

theorem splitCompsAux_ne_nil : ∀ (cs : List Char) (acc : List Char), ¬ acc = [] →
    ¬ splitCompsAux cs acc = [] := by
  intro cs
  induction cs with
  | nil =>
    intro acc hacc
    simp [splitCompsAux, hacc]
  | cons c cs ih =>
    intro acc hacc
    by_cases hc : c = '/'
    · simp [splitCompsAux, hc, hacc]
    · simp only [splitCompsAux, if_neg hc]
      exact ih (c :: acc) (by simp)

theorem splitPathInRoot_sound : SplitSound splitPathInRoot := by
  intro s pre suf ps sep h
  unfold splitPathInRoot at h
  split at h
  next hd =>
    exact Except.noConfusion h
  next c rest hd =>
    split at h
    next hc =>
      exact Except.noConfusion h
    next hc =>
      split at h
      next hnul =>
        exact Except.noConfusion h
      next hnul =>
        injection h with h2
        injection h2 with h3 h4
        subst h3
        have hcomps : ¬ splitCompsAux s.data [] = [] := by
          rw [hd]
          simp only [splitCompsAux, if_neg hc]
          exact splitCompsAux_ne_nil rest [c] (by simp)
        have hpos : 0 < (splitCompsAux s.data []).length :=
          List.length_pos.mpr hcomps
        constructor
        · simp only [List.length_append]
          omega
        · intro hsuf
          subst hsuf
          simp only [List.length_append]
          simp only [List.length_nil]
          omega

theorem bounds_symlinkStep {T : Type} {rootfd : Fd} {split : SplitF} {st : RSt}
    {sys0 : Sys} {t : String} {r : IterRes T}
    (hsound : SplitSound split) (hi : st.i < st.parts.length)
    (h : symlinkStep rootfd split st sys0 t = r) :
    (∀ o st2 sys2, r = IterRes.ret o st2 sys2 → ¬ o = Out.crash) ∧
    (∀ st2 sys2, r = IterRes.cont st2 sys2 → st2.i < st2.parts.length) := by
  refine symlinkStep_elim h ?_ ?_ ?_ ?_
  · intro hmax heq
    subst heq
    constructor
    · intro o st2 sys2 he
      injection he with h1 h2 h3
      subst h1
      simp
    · intro st2 sys2 he
      exact IterRes.noConfusion he
  · intro e hmax2 hs heq
    subst heq
    constructor
    · intro o st2 sys2 he
      injection he with h1 h2 h3
      subst h1
      simp
    · intro st2 sys2 he
      exact IterRes.noConfusion he
  · intro nps nsfx hmax2 hs hcond heq
    subst heq
    have hlen : st.i < nps.length := by
      obtain ⟨ha, hb⟩ := hsound t (st.parts.take st.i) (st.parts.drop (st.i + 1)) nps nsfx hs
      by_cases hnil : st.parts.length ≤ st.i + 1
      · have hdone := hb (List.drop_eq_nil_of_le hnil)
        rw [List.length_take, Nat.min_eq_left (Nat.le_of_lt hi)] at hdone
        exact hdone
      · rw [List.length_take, Nat.min_eq_left (Nat.le_of_lt hi), List.length_drop] at ha
        omega
    constructor
    · intro o st2 sys2 he
      exact IterRes.noConfusion he
    · intro st2 sys2 he
      injection he with h1 h2
      subst h1
      show (0 : Nat) < nps.length
      omega
  · intro nps nsfx hmax2 hs hcond heq
    subst heq
    have hlen : st.i < nps.length := by
      obtain ⟨ha, hb⟩ := hsound t (st.parts.take st.i) (st.parts.drop (st.i + 1)) nps nsfx hs
      by_cases hnil : st.parts.length ≤ st.i + 1
      · have hdone := hb (List.drop_eq_nil_of_le hnil)
        rw [List.length_take, Nat.min_eq_left (Nat.le_of_lt hi)] at hdone
        exact hdone
      · rw [List.length_take, Nat.min_eq_left (Nat.le_of_lt hi), List.length_drop] at ha
        omega
    constructor
    · intro o st2 sys2 he
      exact IterRes.noConfusion he
    · intro st2 sys2 he
      injection he with h1 h2
      subst h1
      exact hlen

theorem bounds_iter_ret {T : Type} {rootfd : Fd} {split : SplitF} {env : EnvF}
    {f : LeafF T} {st st2 : RSt} {sys sys2 : Sys} {o : Out T}
    (hsound : SplitSound split) (hi : st.i < st.parts.length)
    (h : iter rootfd split env f st sys = IterRes.ret o st2 sys2) :
    ¬ o = Out.crash := by
  unfold iter at h
  have hi2 : (RSt.mk st.parts st.suffixSep st.i (st.steps + 1) st.restarts st.symlinks
      st.dirfd).i < (RSt.mk st.parts st.suffixSep st.i (st.steps + 1) st.restarts
      st.symlinks st.dirfd).parts.length := hi
  refine iterCore_elim h ?_ ?_ ?_ ?_ ?_ ?_ ?_ ?_ ?_ ?_
  · intro hb heq
    injection heq with h1 h2 h3
    subst h1
    simp
  · intro hp heq
    have hle : st.parts.length ≤ st.i := List.getElem?_eq_none_iff.mp hp
    omega
  · intro hp hlt heq
    injection heq with h1 h2 h3
    subst h1
    simp
  · intro hp hle heq
    exact IterRes.noConfusion heq
  · intro p v s2 hp hdd hlast hf heq
    injection heq with h1 h2 h3
    subst h1
    simp
  · intro p e s2 hp hdd hlast hf heq
    injection heq with h1 h2 h3
    subst h1
    simp
  · intro p t s2 hp hdd hlast hf hsym
    exact (bounds_symlinkStep hsound hi2 hsym).1 o st2 sys2 rfl
  · intro p hp hdd hlast he heq
    exact IterRes.noConfusion heq
  · intro p e hp hdd hlast he heq
    injection heq with h1 h2 h3
    subst h1
    simp
  · intro p t hp hdd hlast he hsym
    exact (bounds_symlinkStep hsound hi2 hsym).1 o st2 sys2 rfl

theorem bounds_iter_cont {T : Type} {rootfd : Fd} {split : SplitF} {env : EnvF}
    {f : LeafF T} {st st2 : RSt} {sys sys2 : Sys}
    (hsound : SplitSound split) (hi : st.i < st.parts.length)
    (h : iter rootfd split env f st sys = IterRes.cont st2 sys2) :
    st2.i < st2.parts.length := by
  unfold iter at h
  have hi2 : (RSt.mk st.parts st.suffixSep st.i (st.steps + 1) st.restarts st.symlinks
      st.dirfd).i < (RSt.mk st.parts st.suffixSep st.i (st.steps + 1) st.restarts
      st.symlinks st.dirfd).parts.length := hi
  refine iterCore_elim h ?_ ?_ ?_ ?_ ?_ ?_ ?_ ?_ ?_ ?_
  · intro hb heq
    exact IterRes.noConfusion heq
  · intro hp heq
    exact IterRes.noConfusion heq
  · intro hp hlt heq
    exact IterRes.noConfusion heq
  · intro hp hle heq
    injection heq with h1 h2
    subst h1
    by_cases hnil : st.parts.take (st.i - ddCount (st.parts.drop st.i))
        ++ st.parts.drop (st.i + ddCount (st.parts.drop st.i)) = []
    · simp [hnil]
    · simp only [if_neg hnil]
      show (0 : Nat) < (st.parts.take (st.i - ddCount (st.parts.drop st.i))
        ++ st.parts.drop (st.i + ddCount (st.parts.drop st.i))).length
      exact List.length_pos.mpr hnil
  · intro p v s2 hp hdd hlast hf heq
    exact IterRes.noConfusion heq
  · intro p e s2 hp hdd hlast hf heq
    exact IterRes.noConfusion heq
  · intro p t s2 hp hdd hlast hf hsym
    exact (bounds_symlinkStep hsound hi2 hsym).2 st2 sys2 rfl
  · intro p hp hdd hlast he heq
    injection heq with h1 h2
    subst h1
    have hlast2 : ¬ st.i = st.parts.length - 1 := hlast
    show st.i + 1 < st.parts.length
    omega
  · intro p e hp hdd hlast he heq
    exact IterRes.noConfusion heq
  · intro p t hp hdd hlast he hsym
    exact (bounds_symlinkStep hsound hi2 hsym).2 st2 sys2 rfl

/-- C10: at every iteration of the resolution loop, the index is strictly
inside the (non-empty) component list whenever a component is read — an
emptied list is refilled with the root-referring component, the dot-dot
rewrite and a shortening or prefix-changing splice reset the index to `0`,
and the splitter's output is always long enough — so for any splitter with
the spec's join-prefix/suffix shape, any environment, any leaf action and
any input, `doInRoot` never performs an out-of-bounds read. -/
theorem index_in_bounds {T : Type} (fuel : Nat) (closed : Bool) (rootfd : Fd)
    (split : SplitF) (env : EnvF) (f : LeafF T) (name : String) (sys : Sys)
    (hsound : SplitSound split) :
    ¬ (doInRoot fuel closed rootfd split env f name sys).1 = Out.crash := by
  unfold doInRoot
  by_cases hc : closed
  · simp [hc]
  · rw [if_neg hc]
    cases hs : split name [] [] with
    | error e => simp
    | ok pr =>
      obtain ⟨parts, sfx⟩ := pr
      have h0 : (RSt.mk parts sfx 0 0 0 0 rootfd).i <
          (RSt.mk parts sfx 0 0 0 0 rootfd).parts.length := by
        have := (hsound name [] [] parts sfx hs).2 rfl
        simpa using this
      have hQ := run_rec rootfd split env f (fun st sysX => st.i < st.parts.length)
        (fun o _ _ => ¬ o = Out.crash)
        (fun st sysX o st2 sys2 hInv hit => bounds_iter_ret hsound hInv hit)
        (fun st sysX st2 sys2 hInv hit => bounds_iter_cont hsound hInv hit)
        (fun st sysX hInv => by simp)
        fuel (RSt.mk parts sfx 0 0 0 0 rootfd) (emit sys Ev.increfOk) h0
      rcases hrun : run rootfd split env f fuel (RSt.mk parts sfx 0 0 0 0 rootfd)
          (emit sys Ev.increfOk) with ⟨o, st2, sys2⟩
      rw [hrun] at hQ
      simp only [hrun]
      simpa using hQ

theorem index_in_bounds_witness :
    ¬ (doInRoot 6 false 0 splitPathInRoot envOk leafDone ("a/b/c") sysInit).1 =
      Out.crash :=
  index_in_bounds 6 false 0 splitPathInRoot envOk leafDone ("a/b/c") sysInit
    splitPathInRoot_sound

theorem strip_append_sep (name : String) :
    stripTrailingSeps (name ++ ("/")) = stripTrailingSeps name := by
  have hd : (name ++ ("/")).data = name.data ++ ['/'] := by
    simp
  simp [stripTrailingSeps, hd, List.dropWhile_cons, IsPathSeparator]

/-- C7: `rootRemoveAll` first strips all trailing path separators (appending
a separator to the name does not change the outcome at all); if the stripped
name then ends with a dot component it fails with `EINVAL` without resolving
(the system state, including the trace, is untouched — no handle acquisition
happens); and when the stripped name does reach resolution and that
resolution fails with the not-exist error, it returns success. -/
theorem removeAll_spec (fuel : Nat) (closed : Bool) (rootfd : Fd) (split : SplitF)
    (env : EnvF) (f : LeafF Unit) (name : String) (sys : Sys) :
    (rootRemoveAll fuel closed rootfd split env f (name ++ ("/")) sys =
       rootRemoveAll fuel closed rootfd split env f name sys)
    ∧ (endsWithDot (stripTrailingSeps name) = true →
       rootRemoveAll fuel closed rootfd split env f name sys = (Out.err Err.eINVAL, sys))
    ∧ (endsWithDot (stripTrailingSeps name) = false →
       ∀ sys2, doInRoot fuel closed rootfd split env f (stripTrailingSeps name) sys =
         (Out.err Err.eNOENT, sys2) →
       rootRemoveAll fuel closed rootfd split env f name sys = (Out.done (), sys2)) := by
  refine ⟨?_, ?_, ?_⟩
  · unfold rootRemoveAll
    rw [strip_append_sep]
  · intro hdot
    unfold rootRemoveAll
    simp [hdot]
  · intro hdot sys2 hres
    unfold rootRemoveAll
    simp [hdot, hres]

theorem removeAll_spec_witness :
    rootRemoveAll 3 false 0 splitPathInRoot env0 (leaf0 (T := Unit)) (("a") ++ ("/"))
        sysInit =
      rootRemoveAll 3 false 0 splitPathInRoot env0 (leaf0 (T := Unit)) ("a") sysInit
    ∧ rootRemoveAll 3 false 0 splitPathInRoot env0 (leaf0 (T := Unit)) (".") sysInit =
        (Out.err Err.eINVAL, sysInit)
    ∧ rootRemoveAll 3 false 0 splitPathInRoot env0 (leaf0 (T := Unit)) ("a") sysInit =
        (Out.done (),
          (doInRoot 3 false 0 splitPathInRoot env0 (leaf0 (T := Unit)) ("a") sysInit).2) :=
  ⟨(removeAll_spec 3 false 0 splitPathInRoot env0 leaf0 ("a") sysInit).1,
   (removeAll_spec 3 false 0 splitPathInRoot env0 leaf0 (".") sysInit).2.1 (by decide),
   (removeAll_spec 3 false 0 splitPathInRoot env0 leaf0 ("a") sysInit).2.2 (by decide)
     (doInRoot 3 false 0 splitPathInRoot env0 (leaf0 (T := Unit)) ("a") sysInit).2
     (by decide)⟩

theorem closeDir_nextFd (rootfd d : Fd) (sys : Sys) :
    (closeDir rootfd d sys).nextFd = sys.nextFd := by
  unfold closeDir
  split <;> rfl

theorem closeDir_trace_cases (rootfd d : Fd) (sys : Sys) :
    (closeDir rootfd d sys).trace = sys.trace ∨
      (closeDir rootfd d sys).trace = sys.trace ++ [Ev.closedFd d] := by
  unfold closeDir
  split
  · exact Or.inl rfl
  · exact Or.inr rfl

theorem mem_closeDir_live {x rootfd d : Fd} {sys : Sys} (hx : x ∈ sys.live)
    (hne : ¬ x = d) : x ∈ (closeDir rootfd d sys).live := by
  unfold closeDir
  split
  · exact hx
  · show x ∈ sys.live.erase d
    exact (List.mem_erase_of_ne hne).mpr hx

theorem sysEvolves_refl (n0 : Fd) (sys : Sys) : SysEvolves n0 sys sys :=
  ⟨le_refl _, ⟨[], by simp⟩, fun _ h _ => h⟩

theorem sysEvolves_trans {n0 : Fd} {s1 s2 s3 : Sys} (h1 : SysEvolves n0 s1 s2)
    (h2 : SysEvolves n0 s2 s3) : SysEvolves n0 s1 s3 := by
  obtain ⟨a1, ⟨e1, t1⟩, l1⟩ := h1
  obtain ⟨a2, ⟨e2, t2⟩, l2⟩ := h2
  exact ⟨le_trans a1 a2, ⟨e1 ++ e2, by rw [t2, t1, List.append_assoc]⟩,
    fun fd h hl => l2 fd (l1 fd h hl) hl⟩

theorem sysEvolves_mono {n0 m : Fd} {s s2 : Sys} (h : SysEvolves m s s2) (hn : n0 ≤ m) :
    SysEvolves n0 s s2 :=
  ⟨h.1, h.2.1, fun fd hm hl => h.2.2 fd hm (lt_of_lt_of_le hl hn)⟩

theorem sysEvolves_emit (n0 : Fd) (sys : Sys) (e : Ev) : SysEvolves n0 sys (emit sys e) :=
  ⟨le_refl _, ⟨[e], rfl⟩, fun _ h _ => h⟩

theorem sysEvolves_closeDir_high {n0 rootfd d : Fd} (sys : Sys)
    (hd : d = rootfd ∨ n0 ≤ d) : SysEvolves n0 sys (closeDir rootfd d sys) := by
  unfold closeDir
  split
  · exact sysEvolves_refl n0 sys
  · next hne =>
    refine ⟨le_refl _, ⟨[Ev.closedFd d], rfl⟩, ?_⟩
    intro fd h hl
    rcases hd with hd | hd
    · exact absurd hd hne
    · show fd ∈ sys.live.erase d
      exact (List.mem_erase_of_ne (Nat.ne_of_lt (lt_of_lt_of_le hl hd))).mpr h

theorem sysEvolves_allocFd (n0 parent : Fd) (p : String) (sys : Sys) :
    SysEvolves n0 sys (allocFd parent p sys) :=
  ⟨Nat.le_succ _, ⟨[Ev.opened parent p sys.nextFd], rfl⟩,
    fun _ h _ => List.mem_cons_of_mem _ h⟩

theorem dirOk_symlinkStep {T : Type} {rootfd n0 : Fd} {split : SplitF} {st : RSt}
    {sys0 : Sys} {t : String} {r : IterRes T}
    (hD : DirOk rootfd n0 st sys0) (h : symlinkStep rootfd split st sys0 t = r) :
    (∀ o st2 sys2, r = IterRes.ret o st2 sys2 →
       DirOk rootfd n0 st2 sys2 ∧ SysEvolves n0 sys0 sys2) ∧
    (∀ st2 sys2, r = IterRes.cont st2 sys2 →
       DirOk rootfd n0 st2 sys2 ∧ SysEvolves n0 sys0 sys2) := by
  obtain ⟨hn, hdir⟩ := hD
  refine symlinkStep_elim h ?_ ?_ ?_ ?_
  · intro hmax heq
    subst heq
    constructor
    · intro o st2 sys2 he
      injection he with h1 h2 h3
      subst h2
      subst h3
      exact ⟨⟨hn, hdir⟩,
        sysEvolves_trans (sysEvolves_emit n0 sys0 Ev.hop)
          (sysEvolves_emit n0 (emit sys0 Ev.hop) Ev.eloopAbort)⟩
    · intro st2 sys2 he
      exact IterRes.noConfusion he
  · intro e hmax2 hs heq
    subst heq
    constructor
    · intro o st2 sys2 he
      injection he with h1 h2 h3
      subst h2
      subst h3
      exact ⟨⟨hn, hdir⟩, sysEvolves_emit n0 sys0 Ev.hop⟩
    · intro st2 sys2 he
      exact IterRes.noConfusion he
  · intro nps nsfx hmax2 hs hcond heq
    subst heq
    constructor
    · intro o st2 sys2 he
      exact IterRes.noConfusion he
    · intro st2 sys2 he
      injection he with h1 h2
      subst h1
      subst h2
      refine ⟨⟨?_, Or.inl rfl⟩, ?_⟩
      · rw [closeDir_nextFd]
        exact hn
      · refine sysEvolves_trans (sysEvolves_emit n0 sys0 Ev.hop) ?_
        refine sysEvolves_closeDir_high (emit sys0 Ev.hop) ?_
        rcases hdir with hd | hd
        · exact Or.inl hd
        · exact Or.inr hd.1
  · intro nps nsfx hmax2 hs hcond heq
    subst heq
    constructor
    · intro o st2 sys2 he
      exact IterRes.noConfusion he
    · intro st2 sys2 he
      injection he with h1 h2
      subst h1
      subst h2
      exact ⟨⟨hn, hdir⟩, sysEvolves_emit n0 sys0 Ev.hop⟩

theorem dirOk_iter {T : Type} {rootfd n0 : Fd} {split : SplitF} {env : EnvF} {f : LeafF T}
    (hf : LeafPres f) {st : RSt} {sys : Sys} {r : IterRes T}
    (hD : DirOk rootfd n0 st sys) (h : iter rootfd split env f st sys = r) :
    (∀ o st2 sys2, r = IterRes.ret o st2 sys2 →
       DirOk rootfd n0 st2 sys2 ∧ SysEvolves n0 sys sys2) ∧
    (∀ st2 sys2, r = IterRes.cont st2 sys2 →
       DirOk rootfd n0 st2 sys2 ∧ SysEvolves n0 sys sys2) := by
  obtain ⟨hn, hdir⟩ := hD
  have hD2 : DirOk rootfd n0 (RSt.mk st.parts st.suffixSep st.i (st.steps + 1) st.restarts
      st.symlinks st.dirfd) sys := ⟨hn, hdir⟩
  unfold iter at h
  refine iterCore_elim h ?_ ?_ ?_ ?_ ?_ ?_ ?_ ?_ ?_ ?_
  · intro hb heq
    subst heq
    constructor
    · intro o st2 sys2 he
      injection he with h1 h2 h3
      subst h2
      subst h3
      exact ⟨⟨hn, hdir⟩, sysEvolves_emit n0 sys _⟩
    · intro st2 sys2 he
      exact IterRes.noConfusion he
  · intro hp heq
    subst heq
    constructor
    · intro o st2 sys2 he
      injection he with h1 h2 h3
      subst h2
      subst h3
      exact ⟨⟨hn, hdir⟩, sysEvolves_refl n0 sys⟩
    · intro st2 sys2 he
      exact IterRes.noConfusion he
  · intro hp hlt heq
    subst heq
    constructor
    · intro o st2 sys2 he
      injection he with h1 h2 h3
      subst h2
      subst h3
      exact ⟨⟨hn, hdir⟩, sysEvolves_emit n0 sys _⟩
    · intro st2 sys2 he
      exact IterRes.noConfusion he
  · intro hp hle heq
    subst heq
    constructor
    · intro o st2 sys2 he
      exact IterRes.noConfusion he
    · intro st2 sys2 he
      injection he with h1 h2
      subst h1
      subst h2
      refine ⟨⟨?_, Or.inl rfl⟩, ?_⟩
      · rw [closeDir_nextFd]
        exact hn
      · refine sysEvolves_trans (sysEvolves_emit n0 sys Ev.dotdotRestart) ?_
        refine sysEvolves_closeDir_high (emit sys Ev.dotdotRestart) ?_
        rcases hdir with hd | hd
        · exact Or.inl hd
        · exact Or.inr hd.1
  · intro p v s2 hp hdd hlast hf2 heq
    subst heq
    have hstep := hf _ _ _ _ _ hf2
    have hev : SysEvolves n0 sys s2 :=
      sysEvolves_trans (sysEvolves_emit n0 sys _) (sysEvolves_mono hstep hn)
    constructor
    · intro o st2 sys2 he
      injection he with h1 h2 h3
      subst h2
      subst h3
      refine ⟨⟨le_trans hn hev.1, ?_⟩, hev⟩
      rcases hdir with hd | hd
      · exact Or.inl hd
      · exact Or.inr ⟨hd.1, lt_of_lt_of_le hd.2 hev.1⟩
    · intro st2 sys2 he
      exact IterRes.noConfusion he
  · intro p e s2 hp hdd hlast hf2 heq
    subst heq
    have hstep := hf _ _ _ _ _ hf2
    have hev : SysEvolves n0 sys s2 :=
      sysEvolves_trans (sysEvolves_emit n0 sys _) (sysEvolves_mono hstep hn)
    constructor
    · intro o st2 sys2 he
      injection he with h1 h2 h3
      subst h2
      subst h3
      refine ⟨⟨le_trans hn hev.1, ?_⟩, hev⟩
      rcases hdir with hd | hd
      · exact Or.inl hd
      · exact Or.inr ⟨hd.1, lt_of_lt_of_le hd.2 hev.1⟩
    · intro st2 sys2 he
      exact IterRes.noConfusion he
  · intro p t s2 hp hdd hlast hf2 hsym
    have hstep := hf _ _ _ _ _ hf2
    have hev : SysEvolves n0 sys s2 :=
      sysEvolves_trans (sysEvolves_emit n0 sys _) (sysEvolves_mono hstep hn)
    have hD3 : DirOk rootfd n0 (RSt.mk st.parts st.suffixSep st.i (st.steps + 1)
        st.restarts st.symlinks st.dirfd) s2 := by
      refine ⟨le_trans hn hev.1, ?_⟩
      rcases hdir with hd | hd
      · exact Or.inl hd
      · exact Or.inr ⟨hd.1, lt_of_lt_of_le hd.2 hev.1⟩
    have hsplit := dirOk_symlinkStep hD3 hsym
    constructor
    · intro o st2 sys2 he
      obtain ⟨hDa, hEa⟩ := hsplit.1 o st2 sys2 he
      exact ⟨hDa, sysEvolves_trans hev hEa⟩
    · intro st2 sys2 he
      obtain ⟨hDa, hEa⟩ := hsplit.2 st2 sys2 he
      exact ⟨hDa, sysEvolves_trans hev hEa⟩
  · intro p hp hdd hlast he2 heq
    subst heq
    constructor
    · intro o st2 sys2 he
      exact IterRes.noConfusion he
    · intro st2 sys2 he
      injection he with h1 h2
      subst h1
      subst h2
      refine ⟨⟨?_, Or.inr ⟨hn, ?_⟩⟩, ?_⟩
      · rw [closeDir_nextFd]
        show n0 ≤ sys.nextFd + 1
        exact le_trans hn (Nat.le_succ _)
      · rw [closeDir_nextFd]
        show sys.nextFd < sys.nextFd + 1
        exact Nat.lt_succ_self _
      · refine sysEvolves_trans (sysEvolves_allocFd n0 st.dirfd p sys) ?_
        refine sysEvolves_closeDir_high (allocFd st.dirfd p sys) ?_
        rcases hdir with hd | hd
        · exact Or.inl hd
        · exact Or.inr hd.1
  · intro p e hp hdd hlast he2 heq
    subst heq
    constructor
    · intro o st2 sys2 he
      injection he with h1 h2 h3
      subst h2
      subst h3
      exact ⟨⟨hn, hdir⟩, sysEvolves_refl n0 sys⟩
    · intro st2 sys2 he
      exact IterRes.noConfusion he
  · intro p t hp hdd hlast he2 hsym
    exact dirOk_symlinkStep hD2 hsym

theorem dirOk_run {T : Type} {f : LeafF T} (hf : LeafPres f) (rootfd n0 : Fd)
    (split : SplitF) (env : EnvF) (fuel : Nat) (st : RSt) (sys : Sys)
    (hD : DirOk rootfd n0 st sys) :
    DirOk rootfd n0 (run rootfd split env f fuel st sys).2.1
        (run rootfd split env f fuel st sys).2.2 ∧
      SysEvolves n0 sys (run rootfd split env f fuel st sys).2.2 := by
  have hQ := run_rec rootfd split env f
    (fun st2 sysX => DirOk rootfd n0 st2 sysX ∧ SysEvolves n0 sys sysX)
    (fun _ st2 sysX => DirOk rootfd n0 st2 sysX ∧ SysEvolves n0 sys sysX)
    (fun stA sysA o st2 sys2 hInv hit => by
      obtain ⟨hDa, hEa⟩ := hInv
      obtain ⟨hDb, hEb⟩ := (dirOk_iter hf hDa hit).1 o st2 sys2 rfl
      exact ⟨hDb, sysEvolves_trans hEa hEb⟩)
    (fun stA sysA st2 sys2 hInv hit => by
      obtain ⟨hDa, hEa⟩ := hInv
      obtain ⟨hDb, hEb⟩ := (dirOk_iter hf hDa hit).2 st2 sys2 rfl
      exact ⟨hDb, sysEvolves_trans hEa hEb⟩)
    (fun stA sysA hInv => hInv)
    fuel st sys ⟨hD, sysEvolves_refl n0 sys⟩
  exact hQ

theorem doInRoot_evolves {T : Type} {f : LeafF T} (hf : LeafPres f) (fuel : Nat)
    (closed : Bool) (rootfd : Fd) (split : SplitF) (env : EnvF) (name : String)
    (sys : Sys) (o : Out T) (sys2 : Sys)
    (h : doInRoot fuel closed rootfd split env f name sys = (o, sys2)) :
    SysEvolves sys.nextFd sys sys2 := by
  unfold doInRoot at h
  by_cases hc : closed
  · rw [if_pos hc] at h
    injection h with h1 h2
    subst h2
    exact sysEvolves_emit _ sys _
  · rw [if_neg hc] at h
    split at h
    next e hs =>
      injection h with h1 h2
      subst h2
      exact sysEvolves_trans (sysEvolves_emit _ sys _) (sysEvolves_emit _ _ _)
    next parts sfx hs =>
      rcases hrun : run rootfd split env f fuel (RSt.mk parts sfx 0 0 0 0 rootfd)
          (emit sys Ev.increfOk) with ⟨o2, st2, sysX⟩
      simp only [hrun] at h
      injection h with h1 h2
      subst h2
      have hD0 : DirOk rootfd sys.nextFd (RSt.mk parts sfx 0 0 0 0 rootfd)
          (emit sys Ev.increfOk) := ⟨le_refl _, Or.inl rfl⟩
      have hR := dirOk_run hf rootfd sys.nextFd split env fuel
        (RSt.mk parts sfx 0 0 0 0 rootfd) (emit sys Ev.increfOk) hD0
      rw [hrun] at hR
      obtain ⟨⟨hn2, hdir2⟩, hE⟩ := hR
      refine sysEvolves_trans (sysEvolves_emit _ sys Ev.increfOk) ?_
      refine sysEvolves_trans hE ?_
      refine sysEvolves_trans ?_ (sysEvolves_emit _ _ Ev.decref)
      refine sysEvolves_closeDir_high sysX ?_
      rcases hdir2 with hd | hd
      · exact Or.inl hd
      · exact Or.inr hd.1

theorem leafPres_primLeaf (tag : Bool) (op : Fd) (onm : String) :
    LeafPres (primLeaf tag op onm) := by
  intro d nm sys r sys2 h
  unfold primLeaf at h
  injection h with h1 h2
  subst h2
  exact sysEvolves_emit _ sys _

theorem leafPres_renameLeaf (fuel2 : Nat) (rootfd : Fd) (split : SplitF) (env : EnvF)
    (tag : Bool) (newname : String) :
    LeafPres (renameLeaf fuel2 rootfd split env tag newname) := by
  intro d nm sysC r sys2 h
  unfold renameLeaf at h
  split at h
  next b s2 hin =>
    injection h with h1 h2
    subst h2
    exact doInRoot_evolves (leafPres_primLeaf tag d nm) _ _ _ _ _ _ _ _ _ hin
  next e s2 hin =>
    injection h with h1 h2
    subst h2
    exact doInRoot_evolves (leafPres_primLeaf tag d nm) _ _ _ _ _ _ _ _ _ hin
  next s2 hin =>
    injection h with h1 h2
    subst h2
    exact doInRoot_evolves (leafPres_primLeaf tag d nm) _ _ _ _ _ _ _ _ _ hin
  next s2 hin =>
    injection h with h1 h2
    subst h2
    exact doInRoot_evolves (leafPres_primLeaf tag d nm) _ _ _ _ _ _ _ _ _ hin

theorem doInRoot_trace_shape {T : Type} {f : LeafF T} (hf : LeafPres f) (fuel : Nat)
    (rootfd : Fd) (split : SplitF) (env : EnvF) (name : String) (sys : Sys) (o : Out T)
    (sys2 : Sys) (h : doInRoot fuel false rootfd split env f name sys = (o, sys2)) :
    ∃ evs, sys2.trace = sys.trace ++ [Ev.increfOk] ++ evs ++ [Ev.decref] := by
  unfold doInRoot at h
  rw [if_neg (by simp)] at h
  split at h
  next e hs =>
    injection h with h1 h2
    subst h2
    exact ⟨[], by simp [emit]⟩
  next parts sfx hs =>
    rcases hrun : run rootfd split env f fuel (RSt.mk parts sfx 0 0 0 0 rootfd)
        (emit sys Ev.increfOk) with ⟨o2, st2, sysX⟩
    simp only [hrun] at h
    injection h with h1 h2
    subst h2
    have hD0 : DirOk rootfd sys.nextFd (RSt.mk parts sfx 0 0 0 0 rootfd)
        (emit sys Ev.increfOk) := ⟨le_refl _, Or.inl rfl⟩
    have hR := dirOk_run hf rootfd sys.nextFd split env fuel
      (RSt.mk parts sfx 0 0 0 0 rootfd) (emit sys Ev.increfOk) hD0
    rw [hrun] at hR
    obtain ⟨evs1, ht1⟩ := hR.2.2.1
    have ht1b : sysX.trace = sys.trace ++ [Ev.increfOk] ++ evs1 := by
      simpa [emit, List.append_assoc] using ht1
    rcases closeDir_trace_cases rootfd st2.dirfd sysX with hcd | hcd
    · refine ⟨evs1, ?_⟩
      show (closeDir rootfd st2.dirfd sysX).trace ++ [Ev.decref] = _
      rw [hcd, ht1b]
    · refine ⟨evs1 ++ [Ev.closedFd st2.dirfd], ?_⟩
      show (closeDir rootfd st2.dirfd sysX).trace ++ [Ev.decref] = _
      rw [hcd, ht1b]
      simp [List.append_assoc]

theorem emit_live (sys : Sys) (e : Ev) : (emit sys e).live = sys.live := rfl

theorem renLive_closeDir {x rootfd n0 d : Fd} {sys : Sys} (hx : x ∈ sys.live)
    (hdcase : d = rootfd ∨ n0 ≤ d) (hxlt : x < n0 ∨ x = rootfd) :
    x ∈ (closeDir rootfd d sys).live := by
  by_cases hdr : d = rootfd
  · unfold closeDir
    rw [if_pos hdr]
    exact hx
  · have hge : n0 ≤ d := by
      rcases hdcase with hd | hd
      · exact absurd hd hdr
      · exact hd
    refine mem_closeDir_live hx ?_
    rcases hxlt with hlt | hx0
    · exact Nat.ne_of_lt (lt_of_lt_of_le hlt hge)
    · subst hx0
      intro hh
      exact hdr hh.symm

theorem symlinkStep_ret_not_done {T : Type} {rootfd : Fd} {split : SplitF} {st st2 : RSt}
    {sys0 sys2 : Sys} {t : String} {o : Out T}
    (h : symlinkStep (T := T) rootfd split st sys0 t = IterRes.ret o st2 sys2) :
    ∀ v : T, ¬ o = Out.done v := by
  refine symlinkStep_elim h ?_ ?_ ?_ ?_
  · intro hmax heq
    injection heq with h1 h2 h3
    subst h1
    intro v hv
    exact Out.noConfusion hv
  · intro e hm hs heq
    injection heq with h1 h2 h3
    subst h1
    intro v hv
    exact Out.noConfusion hv
  · intro nps nsfx hm hs hc heq
    exact IterRes.noConfusion heq
  · intro nps nsfx hm hs hc heq
    exact IterRes.noConfusion heq

theorem renInv_symlinkStep {T : Type} {rootfd n0 op : Fd} {split : SplitF} {st : RSt}
    {sys0 : Sys} {t : String} {r : IterRes T}
    (hI : RenInv rootfd n0 op st sys0) (h : symlinkStep rootfd split st sys0 t = r) :
    ∀ st2 sys2, r = IterRes.cont st2 sys2 → RenInv rootfd n0 op st2 sys2 := by
  obtain ⟨⟨hn, hdir⟩, hrlt, holt, hrl, hol, hdl⟩ := hI
  have hdcase : st.dirfd = rootfd ∨ n0 ≤ st.dirfd := by
    rcases hdir with hd | hd
    · exact Or.inl hd
    · exact Or.inr hd.1
  refine symlinkStep_elim h ?_ ?_ ?_ ?_
  · intro hmax heq
    subst heq
    intro st2 sys2 he
    exact IterRes.noConfusion he
  · intro e hmax2 hs heq
    subst heq
    intro st2 sys2 he
    exact IterRes.noConfusion he
  · intro nps nsfx hmax2 hs hcond heq
    subst heq
    intro st2 sys2 he
    injection he with h1 h2
    subst h1
    subst h2
    refine ⟨⟨?_, Or.inl rfl⟩, hrlt, holt, ?_, ?_, ?_⟩
    · rw [closeDir_nextFd]
      exact hn
    · exact renLive_closeDir hrl hdcase (Or.inr rfl)
    · exact renLive_closeDir hol hdcase (Or.inl holt)
    · exact renLive_closeDir hrl hdcase (Or.inr rfl)
  · intro nps nsfx hmax2 hs hcond heq
    subst heq
    intro st2 sys2 he
    injection he with h1 h2
    subst h1
    subst h2
    exact ⟨⟨hn, hdir⟩, hrlt, holt, hrl, hol, hdl⟩

theorem renInv_iter_cont {T : Type} {rootfd n0 op : Fd} {split : SplitF} {env : EnvF}
    {f : LeafF T} (hf : LeafPres f) {st st2 : RSt} {sys sys2 : Sys}
    (hI : RenInv rootfd n0 op st sys)
    (h : iter rootfd split env f st sys = IterRes.cont st2 sys2) :
    RenInv rootfd n0 op st2 sys2 := by
  obtain ⟨⟨hn, hdir⟩, hrlt, holt, hrl, hol, hdl⟩ := hI
  have hdcase : st.dirfd = rootfd ∨ n0 ≤ st.dirfd := by
    rcases hdir with hd | hd
    · exact Or.inl hd
    · exact Or.inr hd.1
  have hdltn : st.dirfd < sys.nextFd := by
    rcases hdir with hd | hd
    · rw [hd]
      exact lt_of_lt_of_le hrlt hn
    · exact hd.2
  have hI2 : RenInv rootfd n0 op (RSt.mk st.parts st.suffixSep st.i (st.steps + 1)
      st.restarts st.symlinks st.dirfd) sys :=
    ⟨⟨hn, hdir⟩, hrlt, holt, hrl, hol, hdl⟩
  unfold iter at h
  refine iterCore_elim h ?_ ?_ ?_ ?_ ?_ ?_ ?_ ?_ ?_ ?_
  · intro hb heq
    exact IterRes.noConfusion heq
  · intro hp heq
    exact IterRes.noConfusion heq
  · intro hp hlt heq
    exact IterRes.noConfusion heq
  · intro hp hle heq
    injection heq with h1 h2
    subst h1
    subst h2
    refine ⟨⟨?_, Or.inl rfl⟩, hrlt, holt, ?_, ?_, ?_⟩
    · rw [closeDir_nextFd]
      exact hn
    · exact renLive_closeDir hrl hdcase (Or.inr rfl)
    · exact renLive_closeDir hol hdcase (Or.inl holt)
    · exact renLive_closeDir hrl hdcase (Or.inr rfl)
  · intro p v s2 hp hdd hlast hf2 heq
    exact IterRes.noConfusion heq
  · intro p e s2 hp hdd hlast hf2 heq
    exact IterRes.noConfusion heq
  · intro p t s2 hp hdd hlast hf2 hsym
    have hstep := hf _ _ _ _ _ hf2
    have hI3 : RenInv rootfd n0 op (RSt.mk st.parts st.suffixSep st.i (st.steps + 1)
        st.restarts st.symlinks st.dirfd) s2 := by
      refine ⟨⟨le_trans hn hstep.1, ?_⟩, hrlt, holt, ?_, ?_, ?_⟩
      · rcases hdir with hd | hd
        · exact Or.inl hd
        · exact Or.inr ⟨hd.1, lt_of_lt_of_le hd.2 hstep.1⟩
      · exact hstep.2.2 rootfd hrl (lt_of_lt_of_le hrlt hn)
      · exact hstep.2.2 op hol (lt_of_lt_of_le holt hn)
      · exact hstep.2.2 st.dirfd hdl hdltn
    exact renInv_symlinkStep hI3 hsym st2 sys2 rfl
  · intro p hp hdd hlast he2 heq
    injection heq with h1 h2
    subst h1
    subst h2
    have hfresh : sys.nextFd ∈ (closeDir rootfd st.dirfd (allocFd st.dirfd p sys)).live := by
      by_cases hdr : st.dirfd = rootfd
      · unfold closeDir
        rw [if_pos hdr]
        exact List.mem_cons_self _ _
      · exact mem_closeDir_live (List.mem_cons_self _ _) (Nat.ne_of_gt hdltn)
    have halive : ∀ x : Fd, x ∈ sys.live → x < n0 ∨ x = rootfd →
        x ∈ (closeDir rootfd st.dirfd (allocFd st.dirfd p sys)).live := by
      intro x hx hxlt
      exact renLive_closeDir (List.mem_cons_of_mem _ hx) hdcase hxlt
    refine ⟨⟨?_, Or.inr ⟨hn, ?_⟩⟩, hrlt, holt, ?_, ?_, ?_⟩
    · rw [closeDir_nextFd]
      exact le_trans hn (Nat.le_succ _)
    · rw [closeDir_nextFd]
      exact Nat.lt_succ_self _
    · exact halive rootfd hrl (Or.inr rfl)
    · exact halive op hol (Or.inl holt)
    · exact hfresh
  · intro p e hp hdd hlast he2 heq
    exact IterRes.noConfusion heq
  · intro p t hp hdd hlast he2 hsym
    exact renInv_symlinkStep hI2 hsym st2 sys2 rfl

theorem inner_rename_verdict (fuel2 : Nat) (rootfd : Fd) (split : SplitF) (env : EnvF)
    (tag : Bool) (op : Fd) (onm newname : String) (sys : Sys) (b : Bool) (sys2 : Sys)
    (hrl : rootfd ∈ sys.live) (hol : op ∈ sys.live)
    (hrlt : rootfd < sys.nextFd) (holt : op < sys.nextFd)
    (h : doInRoot fuel2 false rootfd split env (primLeaf tag op onm) newname sys =
      (Out.done b, sys2)) : b = true := by
  unfold doInRoot at h
  rw [if_neg (by simp)] at h
  split at h
  next e hs =>
    injection h with h1 h2
    exact Out.noConfusion h1
  next parts sfx hs =>
    rcases hrun : run rootfd split env (primLeaf tag op onm) fuel2
        (RSt.mk parts sfx 0 0 0 0 rootfd) (emit sys Ev.increfOk) with ⟨o2, st2, sysX⟩
    simp only [hrun] at h
    injection h with h1 h2
    have hI0 : RenInv rootfd sys.nextFd op (RSt.mk parts sfx 0 0 0 0 rootfd)
        (emit sys Ev.increfOk) := ⟨⟨le_refl _, Or.inl rfl⟩, hrlt, holt, hrl, hol, hrl⟩
    have hQ := run_rec rootfd split env (primLeaf tag op onm)
      (RenInv rootfd sys.nextFd op)
      (fun o _ _ => ∀ bb : Bool, o = Out.done bb → bb = true)
      (fun stA sysA o3 st2b sys2b hInv hit => by
        unfold iter at hit
        refine iterCore_elim hit ?_ ?_ ?_ ?_ ?_ ?_ ?_ ?_ ?_ ?_
        · intro hb heq
          injection heq with ha1 ha2 ha3
          subst ha1
          intro bb hbb
          exact Out.noConfusion hbb
        · intro hp heq
          injection heq with ha1 ha2 ha3
          subst ha1
          intro bb hbb
          exact Out.noConfusion hbb
        · intro hp hlt heq
          injection heq with ha1 ha2 ha3
          subst ha1
          intro bb hbb
          exact Out.noConfusion hbb
        · intro hp hle heq
          exact IterRes.noConfusion heq
        · intro p v s2 hp hdd hlast hf2 heq
          injection heq with ha1 ha2 ha3
          subst ha1
          intro bb hbb
          injection hbb with hvb
          subst hvb
          unfold primLeaf at hf2
          injection hf2 with hva hvs
          injection hva with hv2
          rw [← hv2]
          have hol2 : op ∈ sysA.live := hInv.2.2.2.2.1
          have hdl2 : stA.dirfd ∈ sysA.live := hInv.2.2.2.2.2
          simp [emit_live, hol2, hdl2]
        · intro p e s2 hp hdd hlast hf2 heq
          injection heq with ha1 ha2 ha3
          subst ha1
          intro bb hbb
          exact Out.noConfusion hbb
        · intro p t s2 hp hdd hlast hf2 hsym
          unfold primLeaf at hf2
          injection hf2 with hva hvs
          exact LeafRes.noConfusion hva
        · intro p hp hdd hlast he2 heq
          exact IterRes.noConfusion heq
        · intro p e hp hdd hlast he2 heq
          injection heq with ha1 ha2 ha3
          subst ha1
          intro bb hbb
          exact Out.noConfusion hbb
        · intro p t hp hdd hlast he2 hsym
          intro bb hbb
          exact (symlinkStep_ret_not_done hsym bb hbb).elim)
      (fun stA sysA st2b sys2b hInv hit =>
        renInv_iter_cont (leafPres_primLeaf tag op onm) hInv hit)
      (fun stA sysA hInv => fun bb hbb => Out.noConfusion hbb)
      fuel2 (RSt.mk parts sfx 0 0 0 0 rootfd) (emit sys Ev.increfOk) hI0
    rw [hrun] at hQ
    exact hQ b h1

theorem outer_rename_verdict (fuel fuel2 : Nat) (rootfd : Fd) (split : SplitF)
    (env : EnvF) (tag : Bool) (oldname newname : String) (sys : Sys) (b : Bool)
    (sys2 : Sys) (hrl : rootfd ∈ sys.live) (hrlt : rootfd < sys.nextFd)
    (h : doInRoot fuel false rootfd split env
        (renameLeaf fuel2 rootfd split env tag newname) oldname sys = (Out.done b, sys2)) :
    b = true := by
  unfold doInRoot at h
  rw [if_neg (by simp)] at h
  split at h
  next e hs =>
    injection h with h1 h2
    exact Out.noConfusion h1
  next parts sfx hs =>
    rcases hrun : run rootfd split env (renameLeaf fuel2 rootfd split env tag newname)
        fuel (RSt.mk parts sfx 0 0 0 0 rootfd) (emit sys Ev.increfOk) with ⟨o2, st2, sysX⟩
    simp only [hrun] at h
    injection h with h1 h2
    have hI0 : RenInv rootfd sys.nextFd rootfd (RSt.mk parts sfx 0 0 0 0 rootfd)
        (emit sys Ev.increfOk) := ⟨⟨le_refl _, Or.inl rfl⟩, hrlt, hrlt, hrl, hrl, hrl⟩
    have hQ := run_rec rootfd split env (renameLeaf fuel2 rootfd split env tag newname)
      (RenInv rootfd sys.nextFd rootfd)
      (fun o _ _ => ∀ bb : Bool, o = Out.done bb → bb = true)
      (fun stA sysA o3 st2b sys2b hInv hit => by
        obtain ⟨⟨hn, hdir⟩, hrlt2, _, hrl2, _, hdl2⟩ := hInv
        unfold iter at hit
        refine iterCore_elim hit ?_ ?_ ?_ ?_ ?_ ?_ ?_ ?_ ?_ ?_
        · intro hb heq
          injection heq with ha1 ha2 ha3
          subst ha1
          intro bb hbb
          exact Out.noConfusion hbb
        · intro hp heq
          injection heq with ha1 ha2 ha3
          subst ha1
          intro bb hbb
          exact Out.noConfusion hbb
        · intro hp hlt heq
          injection heq with ha1 ha2 ha3
          subst ha1
          intro bb hbb
          exact Out.noConfusion hbb
        · intro hp hle heq
          exact IterRes.noConfusion heq
        · intro p v s2 hp hdd hlast hf2 heq
          injection heq with ha1 ha2 ha3
          subst ha1
          intro bb hbb
          injection hbb with hvb
          subst hvb
          unfold renameLeaf at hf2
          split at hf2
          next bb2 s3 hin =>
            injection hf2 with hva hvs
            injection hva with hv2
            rw [← hv2]
            have hdltn : stA.dirfd < sysA.nextFd := by
              rcases hdir with hd | hd
              · rw [hd]
                exact lt_of_lt_of_le hrlt2 hn
              · exact hd.2
            exact inner_rename_verdict fuel2 rootfd split env tag stA.dirfd _ newname
              (emit sysA (Ev.leafCall stA.dirfd (p ++ stA.suffixSep))) bb2 s3
              hrl2 hdl2 (lt_of_lt_of_le hrlt2 hn) hdltn hin
          next e s3 hin =>
            injection hf2 with hva hvs
            exact LeafRes.noConfusion hva
          next s3 hin =>
            injection hf2 with hva hvs
            exact LeafRes.noConfusion hva
          next s3 hin =>
            injection hf2 with hva hvs
            exact LeafRes.noConfusion hva
        · intro p e s2 hp hdd hlast hf2 heq
          injection heq with ha1 ha2 ha3
          subst ha1
          intro bb hbb
          exact Out.noConfusion hbb
        · intro p t s2 hp hdd hlast hf2 hsym
          intro bb hbb
          exact (symlinkStep_ret_not_done hsym bb hbb).elim
        · intro p hp hdd hlast he2 heq
          exact IterRes.noConfusion heq
        · intro p e hp hdd hlast he2 heq
          injection heq with ha1 ha2 ha3
          subst ha1
          intro bb hbb
          exact Out.noConfusion hbb
        · intro p t hp hdd hlast he2 hsym
          intro bb hbb
          exact (symlinkStep_ret_not_done hsym bb hbb).elim)
      (fun stA sysA st2b sys2b hInv hit =>
        renInv_iter_cont (leafPres_renameLeaf fuel2 rootfd split env tag newname)
          hInv hit)
      (fun stA sysA hInv => fun bb hbb => Out.noConfusion hbb)
      fuel (RSt.mk parts sfx 0 0 0 0 rootfd) (emit sys Ev.increfOk) hI0
    rw [hrun] at hQ
    exact hQ b h1

/-- C8: rename (and symmetrically link) resolves the old path and, nested
inside the old path's leaf action, resolves the new path, so that the
two-parent primitive receives two live directory descriptors: whenever the
call completes, the liveness verdict computed at the instant the primitive is
invoked (both the old parent and the new parent open) is true — the model
never returns a false verdict.  Moreover both resolutions happen under the
one outer handle acquisition: the entire trace of the call is bracketed by
the outer acquire (its very first event) and the matching release (its very
last event). -/
theorem rename_link_nested_spec (fuel fuel2 : Nat) (split : SplitF) (env : EnvF)
    (oldname newname : String) :
    (¬ (rootRename fuel fuel2 0 split env oldname newname sysInit).1 = Out.done false
     ∧ (rootRename fuel fuel2 0 split env oldname newname sysInit).2.trace.head? =
         some Ev.increfOk
     ∧ (rootRename fuel fuel2 0 split env oldname newname sysInit).2.trace.getLast? =
         some Ev.decref)
    ∧ (¬ (rootLink fuel fuel2 0 split env oldname newname sysInit).1 = Out.done false
     ∧ (rootLink fuel fuel2 0 split env oldname newname sysInit).2.trace.head? =
         some Ev.increfOk
     ∧ (rootLink fuel fuel2 0 split env oldname newname sysInit).2.trace.getLast? =
         some Ev.decref) := by
  have main : ∀ tag : Bool,
      ¬ (doInRoot fuel false 0 split env (renameLeaf fuel2 0 split env tag newname)
          oldname sysInit).1 = Out.done false
      ∧ (doInRoot fuel false 0 split env (renameLeaf fuel2 0 split env tag newname)
          oldname sysInit).2.trace.head? = some Ev.increfOk
      ∧ (doInRoot fuel false 0 split env (renameLeaf fuel2 0 split env tag newname)
          oldname sysInit).2.trace.getLast? = some Ev.decref := by
    intro tag
    rcases hz : doInRoot fuel false 0 split env
        (renameLeaf fuel2 0 split env tag newname) oldname sysInit with ⟨o, sysF⟩
    obtain ⟨evs, htr⟩ := doInRoot_trace_shape
      (leafPres_renameLeaf fuel2 0 split env tag newname) fuel 0 split env oldname
      sysInit o sysF hz
    refine ⟨?_, ?_, ?_⟩
    · intro hdone
      have ho : o = Out.done false := hdone
      have hb := outer_rename_verdict fuel fuel2 0 split env tag oldname newname
        sysInit false sysF (by simp [sysInit]) (by simp [sysInit]) (by rw [hz, ho])
      exact Bool.noConfusion hb
    · show sysF.trace.head? = some Ev.increfOk
      rw [htr]
      simp [sysInit]
    · show sysF.trace.getLast? = some Ev.decref
      rw [htr]
      rw [List.getLast?_concat]
  exact ⟨main true, main false⟩

theorem rename_link_nested_spec_witness :
    (rootRename 3 3 0 splitPathInRoot envOk ("a") ("b") sysInit).2.trace.head? =
      some Ev.increfOk :=
  (rename_link_nested_spec 3 3 splitPathInRoot envOk ("a") ("b")).1.2.1

theorem rootStep_inv {r r2 : Root} {op : RootOp}
    (h : r.closeCount = if r.closed ∧ r.refs = 0 then 1 else 0)
    (hs : rootStep r op = some r2) :
    r2.closeCount = if r2.closed ∧ r2.refs = 0 then 1 else 0 := by
  cases op with
  | closeOp =>
    simp only [rootStep, Option.some.injEq] at hs
    subst hs
    by_cases hc : r.closed
    · simp_all [Root.Close]
    · by_cases hr : r.refs = 0 <;> simp_all [Root.Close]
  | increfOp =>
    simp only [rootStep, Option.some.injEq] at hs
    subst hs
    by_cases hc : r.closed
    · simp_all [Root.incref]
    · simp_all [Root.incref]
  | decrefOp =>
    simp only [rootStep, Root.decref] at hs
    by_cases hr : r.refs = 0
    · simp [hr] at hs
    · simp only [hr, if_false, Option.some.injEq] at hs
      subst hs
      by_cases hc : r.closed
      · by_cases h1 : r.refs - 1 = 0 <;> simp_all
      · simp_all

theorem rootRun_inv : ∀ (ops : List RootOp) (r r2 : Root),
    r.closeCount = (if r.closed ∧ r.refs = 0 then 1 else 0) →
    rootRun r ops = some r2 →
    r2.closeCount = if r2.closed ∧ r2.refs = 0 then 1 else 0 := by
  intro ops
  induction ops with
  | nil =>
    intro r r2 h hr
    simp only [rootRun, Option.some.injEq] at hr
    subst hr
    exact h
  | cons op ops ih =>
    intro r r2 h hr
    simp only [rootRun] at hr
    cases hs : rootStep r op with
    | none => rw [hs] at hr; exact absurd hr (by simp)
    | some r1 => rw [hs] at hr; exact ih r1 r2 (rootStep_inv h hs) hr

/-- C1: over every interleaving (sequence) of `Close`, `incref` and `decref`
operations on a freshly opened root handle, the underlying descriptor has
been released exactly once when `closed ∧ refs = 0` holds and has never been
released otherwise — so it is never released twice and never while a
reference is held.  Moreover `Close` releases it immediately exactly when no
reference is held, and the `decref` that brings `refs` to `0` after closing
performs the release, while a `decref` on an unclosed handle never does. -/
theorem close_released_exactly_once :
    (∀ (ops : List RootOp) (r : Root), rootRun rootInit ops = some r →
       r.closeCount = if r.closed ∧ r.refs = 0 then 1 else 0)
    ∧ (∀ r : Root, ¬ r.closed → r.refs = 0 → (Root.Close r).closeCount = r.closeCount + 1)
    ∧ (∀ r : Root, 0 < r.refs → (Root.Close r).closeCount = r.closeCount)
    ∧ (∀ r : Root, r.closed → r.refs = 1 →
        Root.decref r = some (Root.mk 0 true (r.closeCount + 1)))
    ∧ (∀ r : Root, r.closed = false → 0 < r.refs →
        Root.decref r = some (Root.mk (r.refs - 1) false r.closeCount)) := by
  refine ⟨fun ops r h => rootRun_inv ops rootInit r (by decide) h, ?_, ?_, ?_, ?_⟩
  · intro r hc hr
    simp [Root.Close, hc, hr]
  · intro r hr
    simp [Root.Close, Nat.pos_iff_ne_zero.mp hr]
  · intro r hc hr
    simp [Root.decref, hr, hc]
  · intro r hc hr
    simp [Root.decref, Nat.pos_iff_ne_zero.mp hr, hc]

theorem close_released_exactly_once_witness :
    (Root.mk 0 true 1).closeCount =
      (if (Root.mk 0 true 1).closed ∧ (Root.mk 0 true 1).refs = 0 then 1 else 0)
    ∧ (Root.Close rootInit).closeCount = rootInit.closeCount + 1 :=
  ⟨close_released_exactly_once.1 [RootOp.increfOp, RootOp.closeOp, RootOp.decrefOp]
      (Root.mk 0 true 1) (by decide),
   close_released_exactly_once.2.1 rootInit (by decide) (by decide)⟩

/-- C2: `incref` increments `refs` and succeeds exactly when the handle is
not closed, and returns `ErrClosed` leaving `refs` unchanged when it is; in
particular any `incref` after a `Close` fails, and a `doInRoot` entry on a
closed handle fails with `ErrClosed` (its very first step is the failing
acquire). -/
theorem incref_closed_behavior :
    (∀ r : Root, r.closed = false →
       Root.incref r = (Root.mk (r.refs + 1) false r.closeCount, none))
    ∧ (∀ r : Root, r.closed = true → Root.incref r = (r, some Err.errClosed))
    ∧ (∀ r : Root, Root.incref (Root.Close r) = (Root.Close r, some Err.errClosed))
    ∧ (∀ (T : Type) (fuel : Nat) (rootfd : Fd) (split : SplitF) (env : EnvF) (f : LeafF T)
        (name : String) (sys : Sys),
        (doInRoot fuel true rootfd split env f name sys).1 = Out.err Err.errClosed) := by
  refine ⟨?_, ?_, ?_, ?_⟩
  · intro r h
    cases r
    simp_all [Root.incref]
  · intro r h
    simp [Root.incref, h]
  · intro r
    simp [Root.incref, Root.Close]
  · intro T fuel rootfd split env f name sys
    simp [doInRoot]

theorem incref_closed_behavior_witness :
    Root.incref rootInit = (Root.mk 1 false 0, none)
    ∧ (doInRoot 3 true 0 splitPathInRoot env0 (leaf0 (T := Unit)) ("a") sysInit).1 =
        Out.err Err.errClosed :=
  ⟨incref_closed_behavior.1 rootInit rfl,
   incref_closed_behavior.2.2.2 Unit 3 0 splitPathInRoot env0 leaf0 ("a") sysInit⟩

/-- C4: when the current component at index `i` is the dot-dot, the loop
counts the run of consecutive dot-dot components as `count`; if `count > i`
it returns the escapes-root error (with the restart already counted),
otherwise it deletes the `count` preceding components together with the
`count` dot-dot components, refills an emptied list with the root-referring
component, resets the index to `0`, switches the cursor back to the root
descriptor (releasing any non-root descriptor) and counts one restart. -/
theorem dotdot_rewrite_spec {T : Type} (rootfd : Fd) (split : SplitF) (env : EnvF)
    (f : LeafF T) (st : RSt) (sys : Sys)
    (hb : ¬ (maxSteps < st.steps + 1 ∧ maxRestarts < st.restarts))
    (hp : st.parts[st.i]? = some ("..")) :
    (st.i < ddCount (st.parts.drop st.i) →
       iter rootfd split env f st sys =
         IterRes.ret (Out.err Err.ePathEscapes)
           (RSt.mk st.parts st.suffixSep st.i (st.steps + 1) (st.restarts + 1) st.symlinks
             st.dirfd)
           (emit sys Ev.dotdotRestart))
    ∧ (ddCount (st.parts.drop st.i) ≤ st.i →
       iter rootfd split env f st sys =
         IterRes.cont
           (RSt.mk
             (if st.parts.take (st.i - ddCount (st.parts.drop st.i))
                 ++ st.parts.drop (st.i + ddCount (st.parts.drop st.i)) = []
              then ["."]
              else st.parts.take (st.i - ddCount (st.parts.drop st.i))
                 ++ st.parts.drop (st.i + ddCount (st.parts.drop st.i)))
             st.suffixSep 0 (st.steps + 1) (st.restarts + 1) st.symlinks rootfd)
           (closeDir rootfd st.dirfd (emit sys Ev.dotdotRestart))) := by
  obtain ⟨parts, sfx, i, steps, restarts, symlinks, dirfd⟩ := st
  simp only at hp hb
  constructor
  · intro hlt
    simp only at hlt
    simp [iter, iterCore, hb, hp, ddStep, hlt]
  · intro hle
    simp only at hle
    simp [iter, iterCore, hb, hp, ddStep, Nat.not_lt.mpr hle]

theorem dotdot_rewrite_spec_witness :
    iter 0 splitPathInRoot env0 (leaf0 (T := Unit))
        (RSt.mk ["a", "..", "b"] "" 1 0 0 0 0) sysInit =
      IterRes.cont (RSt.mk ["b"] "" 0 1 1 0 0)
        (closeDir 0 0 (emit sysInit Ev.dotdotRestart)) := by
  have h := (dotdot_rewrite_spec 0 splitPathInRoot env0 (leaf0 (T := Unit))
    (RSt.mk ["a", "..", "b"] "" 1 0 0 0 0) sysInit (by decide) (by decide)).2 (by decide)
  simpa using h

/-- C6: when a symlink target `t` is spliced at index `i`, the new component
list is computed by the splitter from `t` with the consumed prefix
`parts.take i` and the unconsumed suffix `parts.drop (i+1)` as context; if
the new list is shorter than `i` or its first `i` components differ from the
consumed prefix, the index is reset to `0` and the cursor drops back to the
root descriptor (releasing any non-root descriptor), otherwise index and
descriptor are kept; the target's trailing-separator suffix becomes the
active suffix exactly when the symlink was the final component. -/
theorem symlink_splice_spec {T : Type} (rootfd : Fd) (split : SplitF) (st : RSt) (sys : Sys)
    (t : String) (nps : List String) (nsfx : String)
    (hmax : st.symlinks + 1 ≤ rootMaxSymlinks)
    (hsplit : split t (st.parts.take st.i) (st.parts.drop (st.i + 1)) =
      Except.ok (nps, nsfx)) :
    (nps.length < st.i ∨ ¬ (st.parts.take st.i = nps.take st.i) →
       symlinkStep (T := T) rootfd split st sys t =
         IterRes.cont
           (RSt.mk nps (if st.i = st.parts.length - 1 then nsfx else st.suffixSep) 0
             st.steps st.restarts (st.symlinks + 1) rootfd)
           (closeDir rootfd st.dirfd (emit sys Ev.hop)))
    ∧ (¬ (nps.length < st.i ∨ ¬ (st.parts.take st.i = nps.take st.i)) →
       symlinkStep (T := T) rootfd split st sys t =
         IterRes.cont
           (RSt.mk nps (if st.i = st.parts.length - 1 then nsfx else st.suffixSep) st.i
             st.steps st.restarts (st.symlinks + 1) st.dirfd)
           (emit sys Ev.hop)) := by
  obtain ⟨parts, sfx, i, steps, restarts, symlinks, dirfd⟩ := st
  simp only at hmax hsplit
  constructor
  · intro hcase
    simp only at hcase
    simp [symlinkStep, Nat.not_lt.mpr hmax, hsplit, hcase]
  · intro hcase
    simp only at hcase
    simp [symlinkStep, Nat.not_lt.mpr hmax, hsplit, hcase]

theorem symlink_splice_spec_witness :
    symlinkStep (T := Unit) 7 splitPathInRoot (RSt.mk ["a", "b"] "" 1 5 0 0 9) sysInit
        ("c") =
      IterRes.cont (RSt.mk ["a", "c"] "" 1 5 0 1 9) (emit sysInit Ev.hop) := by
  have h := symlink_splice_spec (T := Unit) 7 splitPathInRoot
    (RSt.mk ["a", "b"] "" 1 5 0 0 9) sysInit ("c") ["a", "c"] "" (by decide) (by rfl)
  have h2 := h.2 (by decide)
  simpa using h2

/-- C9 (amended): a component list consisting purely of dot-dot segments
(any positive number of them) makes the resolution loop terminate on its
very first iteration with the escapes-root error `errPathEscapes` — it
neither loops nor reaches the step/restart budget abort. -/
theorem pure_dotdot_escapes {T : Type} (n fuel : Nat) (hn : 0 < n) (hf : 0 < fuel)
    (rootfd : Fd) (split : SplitF) (env : EnvF) (f : LeafF T) (sfx : String) (sys : Sys) :
    (run rootfd split env f fuel
        (RSt.mk (List.replicate n ("..")) sfx 0 0 0 0 rootfd) sys).1 =
      Out.err Err.ePathEscapes := by
  cases fuel with
  | zero => omega
  | succ m =>
    cases n with
    | zero => omega
    | succ k =>
      have hdd : ddCount (List.replicate (k + 1) ("..")) = k + 1 := ddCount_replicate (k + 1)
      simp [run, iter, iterCore, maxSteps, maxRestarts, List.replicate, ddStep, ddCount,
        ddCount_replicate]

theorem pure_dotdot_escapes_witness :
    (run 0 splitPathInRoot env0 (leaf0 (T := Unit)) 1
        (RSt.mk (List.replicate 1 ("..")) "" 0 0 0 0 0) sysInit).1 =
      Out.err Err.ePathEscapes :=
  pure_dotdot_escapes 1 1 (by decide) (by decide) 0 splitPathInRoot env0 leaf0 "" sysInit

set_option maxRecDepth 100000 in
/-- C9 (counterexample to the claim as stated): on the concrete input of
three hundred dot-dot segments, `doInRoot` fails with the escapes-root error
`errPathEscapes`, which is not the budget error `ENAMETOOLONG` the claim
names. -/
theorem pure_dotdot_counterexample :
    (doInRoot 5 false 0 splitPathInRoot env0 (leaf0 (T := Unit)) dotsName sysInit).1 =
      Out.err Err.ePathEscapes
    ∧ (Out.err Err.ePathEscapes : Out Unit) ≠ Out.err Err.eNAMETOOLONG := by
  constructor
  · decide
  · decide

end OsRoot
